import Mathlib

/-!
Verification of the walkthrough-capstone visual-inspection pipelines.

This file gives a shallow embedding, in Lean 4, of the decision logic of the
three agent pipelines of the repository (quality gate, comparison, coverage
review) and proves the behavioural claims about them.  Python floats are
modelled as rationals, Python strings as Lean strings (lists of characters),
Python lists as Lean lists, and Python dicts as association lists with
Python's insertion-order/overwrite semantics.  Calls into external libraries
(the vision model, `json.loads`, OpenCV) are modelled as explicit oracles or,
for the pixel pipeline, as functions on `ℤ × ℤ` following the documented
semantics of the OpenCV primitives used by the source.
-/

namespace Walkthrough

/-! ## Quality gate: `decide_quality` (src/app/agents/quality_gate/tools.py) -/

/-- Embeds `decide_quality` from src/app/agents/quality_gate/tools.py.
Scores and thresholds are Python floats, modelled as rationals.  The source
returns "rejected" on any hard failure (a metric strictly below its threshold
minus the borderline margin), then "accepted" when all three metrics are at or
above their thresholds, and "borderline" otherwise. -/
def decide_quality (blur darkness sharpness blur_threshold darkness_threshold
    sharpness_threshold borderline_margin : ℚ) : String :=
  if blur < blur_threshold - borderline_margin then "rejected"
  else if darkness < darkness_threshold - borderline_margin then "rejected"
  else if sharpness < sharpness_threshold - borderline_margin then "rejected"
  else if blur_threshold ≤ blur ∧ darkness_threshold ≤ darkness ∧
      sharpness_threshold ≤ sharpness then "accepted"
  else "borderline"

/-- C1: `decide_quality` rejects iff some metric is strictly below its
threshold minus the margin (independently of the others); otherwise it accepts
iff all three metrics are at or above their thresholds, and is borderline in
the remaining band.  The three concrete examples of the spec for thresholds
(100, 40, 50) and margin 20 are included. -/
theorem decide_quality_spec (b d s Tb Td Ts M : ℚ) :
    ((b < Tb - M ∨ d < Td - M ∨ s < Ts - M) →
      decide_quality b d s Tb Td Ts M = "rejected") ∧
    (¬ (b < Tb - M ∨ d < Td - M ∨ s < Ts - M) → (Tb ≤ b ∧ Td ≤ d ∧ Ts ≤ s) →
      decide_quality b d s Tb Td Ts M = "accepted") ∧
    (¬ (b < Tb - M ∨ d < Td - M ∨ s < Ts - M) → ¬ (Tb ≤ b ∧ Td ≤ d ∧ Ts ≤ s) →
      decide_quality b d s Tb Td Ts M = "borderline") ∧
    decide_quality 200 100 80 100 40 50 20 = "accepted" ∧
    decide_quality 10 100 80 100 40 50 20 = "rejected" ∧
    decide_quality 90 100 80 100 40 50 20 = "borderline" := by
  refine ⟨?_, ?_, ?_, by norm_num [decide_quality], by norm_num [decide_quality],
    by norm_num [decide_quality]⟩
  · rintro (h | h | h)
    · unfold decide_quality
      rw [if_pos h]
    · unfold decide_quality
      by_cases h1 : b < Tb - M
      · rw [if_pos h1]
      · rw [if_neg h1, if_pos h]
    · unfold decide_quality
      by_cases h1 : b < Tb - M
      · rw [if_pos h1]
      · by_cases h2 : d < Td - M
        · rw [if_neg h1, if_pos h2]
        · rw [if_neg h1, if_neg h2, if_pos h]
  · intro hno hall
    push_neg at hno
    unfold decide_quality
    rw [if_neg (not_lt.mpr hno.1), if_neg (not_lt.mpr hno.2.1),
      if_neg (not_lt.mpr hno.2.2), if_pos hall]
  · intro hno hnot
    push_neg at hno
    unfold decide_quality
    rw [if_neg (not_lt.mpr hno.1), if_neg (not_lt.mpr hno.2.1),
      if_neg (not_lt.mpr hno.2.2), if_neg hnot]

/-- Witness for `decide_quality_spec`: the hard-fail example of the spec,
obtained by applying the theorem at concrete scores. -/
theorem decide_quality_spec_witness :
    decide_quality 10 100 80 100 40 50 20 = "rejected" :=
  (decide_quality_spec 10 100 80 100 40 50 20).1 (Or.inl (by norm_num))

/-! ## Quality gate pipeline (src/app/agents/quality_gate/graph.py) -/

/-- Per-image metrics record threaded through the quality-gate graph
(`ImageMetrics` in src/app/agents/state.py). -/
structure ImageMetrics where
  image_id : ℕ
  file_path : String
  blur_score : ℚ
  darkness_score : ℚ
  sharpness_score : ℚ
  status : String
  llm_verdict : String
deriving DecidableEq, Repr

/-- The quality-gate configuration dict built in `run_quality_gate`. -/
structure QGConfig where
  blur_threshold : ℚ
  darkness_threshold : ℚ
  sharpness_threshold : ℚ
  borderline_margin : ℚ
deriving DecidableEq, Repr

/-- The verdict `evaluate_node` computes for one metrics record. -/
def qgVerdict (cfg : QGConfig) (m : ImageMetrics) : String :=
  decide_quality m.blur_score m.darkness_score m.sharpness_score
    cfg.blur_threshold cfg.darkness_threshold cfg.sharpness_threshold
    cfg.borderline_margin

/-- Embeds `evaluate_node` from src/app/agents/quality_gate/graph.py: walks the
metrics list, stamping each record with its deterministic verdict and
collecting the ids of borderline images. -/
def evaluate_node (cfg : QGConfig) : List ImageMetrics → List ImageMetrics × List ℕ
  | [] => ([], [])
  | m :: rest =>
    let verdict := qgVerdict cfg m
    let tail := evaluate_node cfg rest
    ({ m with status := verdict } :: tail.1,
      if verdict = "borderline" then m.image_id :: tail.2 else tail.2)

/-- Embeds the `except RuntimeError` branch of `llm_judge_node`
(src/app/agents/quality_gate/graph.py): when `get_llm_provider` reports that no
vision model is configured, every metrics record whose id is among the
borderline ids is accepted with verdict "accepted_no_llm", and the borderline
list is cleared. -/
def llm_judge_node_no_llm (metrics : List ImageMetrics) (borderline_ids : List ℕ) :
    List ImageMetrics × List ℕ :=
  (metrics.map fun m =>
    if m.image_id ∈ borderline_ids then
      { m with status := "accepted", llm_verdict := "accepted_no_llm" }
    else m, [])

/-- Embeds `finalize_node`: overall status is "failed" iff some image is
"rejected", else "passed". -/
def finalize_node (metrics : List ImageMetrics) : String :=
  if metrics.any (fun m => m.status = "rejected") then "failed" else "passed"

/-- The quality-gate graph run with no vision model configured:
`compute_metrics → evaluate → (llm_judge if borderline else skip) → finalize`,
where the judge takes its no-provider branch.  Returns the final metrics and
the overall status. -/
def quality_gate_no_llm (cfg : QGConfig) (metrics : List ImageMetrics) :
    List ImageMetrics × String :=
  let ev := evaluate_node cfg metrics
  let final := if ev.2 ≠ [] then (llm_judge_node_no_llm ev.1 ev.2).1 else ev.1
  (final, finalize_node final)

theorem evaluate_node_fst (cfg : QGConfig) (metrics : List ImageMetrics) :
    (evaluate_node cfg metrics).1 =
      metrics.map (fun m => { m with status := qgVerdict cfg m }) := by
  induction metrics with
  | nil => rfl
  | cons m rest ih => simp [evaluate_node, ih]

theorem evaluate_node_snd_mem (cfg : QGConfig) (metrics : List ImageMetrics)
    (m : ImageMetrics) (hm : m ∈ metrics) (hb : qgVerdict cfg m = "borderline") :
    m.image_id ∈ (evaluate_node cfg metrics).2 := by
  induction metrics with
  | nil => cases hm
  | cons m' rest ih =>
    rcases List.mem_cons.mp hm with hm | hm
    · subst hm
      simp [evaluate_node, hb]
    · have := ih hm
      by_cases h : qgVerdict cfg m' = "borderline" <;>
        simp [evaluate_node, h, this]

theorem finalize_node_failed_iff (metrics : List ImageMetrics) :
    finalize_node metrics = "failed" ↔ ∃ m ∈ metrics, m.status = "rejected" := by
  unfold finalize_node
  by_cases h : metrics.any (fun m => m.status = "rejected") = true
  · rw [if_pos h]
    simp only [List.any_eq_true, decide_eq_true_eq] at h
    exact iff_of_true rfl h
  · rw [if_neg h]
    simp only [List.any_eq_true, decide_eq_true_eq] at h
    exact iff_of_false (by decide) h

theorem quality_gate_no_llm_status_mem (cfg : QGConfig) (metrics : List ImageMetrics)
    (m' : ImageMetrics) (hm' : m' ∈ (quality_gate_no_llm cfg metrics).1) :
    m'.status = "accepted" ∨ ∃ m ∈ metrics, m'.status = qgVerdict cfg m := by
  unfold quality_gate_no_llm at hm'
  simp only at hm'
  split at hm'
  · rcases List.mem_map.mp hm' with ⟨m₁, hm₁, rfl⟩
    rw [evaluate_node_fst] at hm₁
    rcases List.mem_map.mp hm₁ with ⟨m, hm, rfl⟩
    by_cases hin : m.image_id ∈ (evaluate_node cfg metrics).2
    · left
      simp [llm_judge_node_no_llm, hin]
    · right
      refine ⟨m, hm, ?_⟩
      simp [llm_judge_node_no_llm, hin]
  · rw [evaluate_node_fst] at hm'
    rcases List.mem_map.mp hm' with ⟨m, hm, rfl⟩
    exact Or.inr ⟨m, hm, rfl⟩

/-- C2: with no vision model configured, (i) every image whose deterministic
verdict is borderline ends the pipeline with status "accepted" and verdict
"accepted_no_llm"; (ii) `finalize_node` returns "failed" iff some record has
status "rejected"; (iii) hence if no image's deterministic verdict is
"rejected", the pipeline's overall status is "passed" — borderline images
alone never produce "failed". -/
theorem quality_gate_no_llm_fail_open (cfg : QGConfig) (metrics : List ImageMetrics) :
    (∀ (i : ℕ) (m : ImageMetrics), metrics[i]? = some m →
      qgVerdict cfg m = "borderline" →
      ∃ m' : ImageMetrics, (quality_gate_no_llm cfg metrics).1[i]? = some m' ∧
        m'.status = "accepted" ∧ m'.llm_verdict = "accepted_no_llm") ∧
    (∀ ms : List ImageMetrics,
      finalize_node ms = "failed" ↔ ∃ m ∈ ms, m.status = "rejected") ∧
    ((∀ m ∈ metrics, qgVerdict cfg m ≠ "rejected") →
      (quality_gate_no_llm cfg metrics).2 = "passed") := by
  refine ⟨?_, finalize_node_failed_iff, ?_⟩
  · intro i m hi hb
    have hmem : m ∈ metrics := List.getElem?_mem hi
    have hid : m.image_id ∈ (evaluate_node cfg metrics).2 :=
      evaluate_node_snd_mem cfg metrics m hmem hb
    have hne : (evaluate_node cfg metrics).2 ≠ [] := by
      intro h
      rw [h] at hid
      cases hid
    unfold quality_gate_no_llm
    simp only [if_pos hne]
    refine ⟨{ m with status := "accepted", llm_verdict := "accepted_no_llm" },
      ?_, rfl, rfl⟩
    unfold llm_judge_node_no_llm
    simp only [List.getElem?_map, evaluate_node_fst, hi, Option.map_some']
    simp [hid]
  · intro hnorej
    have hstat : ∀ m' ∈ (quality_gate_no_llm cfg metrics).1, m'.status ≠ "rejected" := by
      intro m' hm'
      rcases quality_gate_no_llm_status_mem cfg metrics m' hm' with h | ⟨m, hm, h⟩
      · rw [h]
        decide
      · rw [h]
        exact hnorej m hm
    show finalize_node (quality_gate_no_llm cfg metrics).1 = "passed"
    unfold finalize_node
    rw [if_neg]
    simp only [List.any_eq_true, decide_eq_true_eq, not_exists]
    intro m' hm'
    exact absurd hm'.2 (hstat m' hm'.1)

/-- Witness for `quality_gate_no_llm_fail_open`: a single borderline image
(scores 90/100/80 against thresholds 100/40/50, margin 20) makes the
no-model pipeline finish "passed". -/
theorem quality_gate_no_llm_fail_open_witness :
    (quality_gate_no_llm ⟨100, 40, 50, 20⟩
      [⟨1, "a.jpg", 90, 100, 80, "pending", ""⟩]).2 = "passed" :=
  (quality_gate_no_llm_fail_open ⟨100, 40, 50, 20⟩
      [⟨1, "a.jpg", 90, 100, 80, "pending", ""⟩]).2.2 (by
    intro m hm
    rcases List.mem_cons.mp hm with rfl | h
    · norm_num [qgVerdict, decide_quality]
      decide
    · cases h)

/-! ## Language policy filter (`apply_language_policy`,
src/app/agents/comparison/tools.py)

`re.sub` with an escaped (literal) pattern replaces leftmost, non-overlapping
occurrences of the pattern, scanning left to right.  `substAll` embeds this
for a nonempty literal pattern; `substAllCI` adds `re.IGNORECASE`, modelled as
per-character ASCII lowercasing (the policy's phrases are plain ASCII). -/

/-- Leftmost, non-overlapping replacement of the literal pattern `t` by `r`
in `s` — the semantics of Python `re.sub` with an `re.escape`d nonempty
pattern.  (For `t = []` this embedding is the identity; the source never
passes an empty forbidden phrase.) -/
def substAll (t r : List Char) : List Char → List Char
  | [] => []
  | c :: s =>
    if h : t <+: (c :: s) ∧ t ≠ [] then
      r ++ substAll t r ((c :: s).drop t.length)
    else
      c :: substAll t r s
termination_by s => s.length
decreasing_by
  · have ht : 0 < t.length := List.length_pos.mpr h.2
    simp only [List.length_drop, List.length_cons]
    omega
  · simp

theorem substAll_nil (t r : List Char) : substAll t r [] = [] := by
  simp [substAll]

theorem substAll_cons (t r : List Char) (c : Char) (s : List Char) :
    substAll t r (c :: s) =
      if t <+: (c :: s) ∧ t ≠ [] then
        r ++ substAll t r ((c :: s).drop t.length)
      else
        c :: substAll t r s := by
  rw [substAll]
  rfl

/-- Decomposition of an occurrence inside a concatenation: it lies in the
left part, in the right part, or straddles the seam. -/
theorem infix_append_cases {t u v : List Char} (h : t <:+: u ++ v) :
    t <:+: u ∨ t <:+: v ∨
      ∃ k, 0 < k ∧ k < t.length ∧ t.take k <:+ u ∧ t.drop k <+: v := by
  induction u with
  | nil => exact Or.inr (Or.inl (by simpa using h))
  | cons c u ih =>
    rw [List.cons_append] at h
    rcases List.infix_cons_iff.mp h with hpre | hinf
    · rw [← List.cons_append] at hpre
      by_cases hle : t.length ≤ (c :: u).length
      · exact Or.inl
          (List.prefix_of_prefix_length_le hpre (List.prefix_append (c :: u) v) hle).isInfix
      · push_neg at hle
        have hcu : (c :: u) <+: t :=
          List.prefix_of_prefix_length_le (List.prefix_append (c :: u) v) hpre (le_of_lt hle)
        have htake : t.take (c :: u).length = c :: u :=
          (List.prefix_iff_eq_take.mp hcu).symm
        refine Or.inr (Or.inr ⟨(c :: u).length, by simp, hle, ?_, ?_⟩)
        · rw [htake]
        · have ht : t = (c :: u) ++ t.drop (c :: u).length := by
            conv_lhs => rw [← List.take_append_drop (c :: u).length t]
            rw [htake]
          exact (List.prefix_append_right_inj (c :: u)).mp (ht ▸ hpre)
    · rcases ih hinf with h1 | h2 | ⟨k, hk0, hkt, htk, hdk⟩
      · exact Or.inl (List.infix_cons h1)
      · exact Or.inr (Or.inl h2)
      · exact Or.inr (Or.inr ⟨k, hk0, hkt, htk.trans (List.suffix_cons c u), hdk⟩)

/-- A nonempty suffix `u` of the scanned term `t` that turns up as a prefix of
`substAll t' r s` was already a prefix of `s`, provided `t` cannot restart
inside the replacement `r`. -/
theorem prefix_substAll (t t' r : List Char) (htr : ¬ t <:+: r)
    (hd : ∀ k, k < t.length → 0 < k → ¬ t.drop k <+: r)
    (hlen : t.length ≤ r.length) :
    ∀ s u, u ≠ [] → u <:+ t → u <+: substAll t' r s → u <+: s := by
  intro s
  induction s with
  | nil =>
    intro u hu _ hp
    rw [substAll_nil] at hp
    exact absurd (List.prefix_nil.mp hp) hu
  | cons c s ih =>
    intro u hu hut hp
    rw [substAll_cons] at hp
    split_ifs at hp with hcond
    · exfalso
      have hur : u <+: r :=
        List.prefix_of_prefix_length_le hp (List.prefix_append r _)
          (le_trans hut.length_le hlen)
      rcases hut with ⟨pre, hpre⟩
      rcases eq_or_ne pre [] with rfl | hpre_ne
      · simp only [List.nil_append] at hpre
        subst hpre
        exact htr hur.isInfix
      · have hk : t.drop pre.length = u := by
          rw [← hpre, List.drop_left]
        have h1 : pre.length < t.length := by
          have h2 := List.length_pos.mpr hu
          rw [← hpre, List.length_append]
          omega
        exact hd pre.length h1 (List.length_pos.mpr hpre_ne) (hk ▸ hur)
    · rcases u with _ | ⟨u₀, u₁⟩
      · exact absurd rfl hu
      rcases List.cons_prefix_cons.mp hp with ⟨rfl, hu₁⟩
      rcases eq_or_ne u₁ [] with rfl | hne
      · exact List.cons_prefix_cons.mpr ⟨rfl, List.nil_prefix⟩
      · exact List.cons_prefix_cons.mpr
          ⟨rfl, ih u₁ hne ((List.suffix_cons u₀ u₁).trans hut) hu₁⟩

/-- After replacing every occurrence of `t` by `r`, no occurrence of `t`
remains — the key step of idempotence.  The side conditions say `t` does not
occur in `r` and cannot straddle a seam of the rewritten text. -/
theorem not_infix_substAll_self (t r : List Char) (ht : t ≠ [])
    (htr : ¬ t <:+: r)
    (hsuf : ∀ k, k < t.length → 0 < k → ¬ t.take k <:+ r)
    (hd : ∀ k, k < t.length → 0 < k → ¬ t.drop k <+: r)
    (hlen : t.length ≤ r.length) :
    ∀ s, ¬ t <:+: substAll t r s
  | [] => by
    rw [substAll_nil]
    intro h
    exact ht (List.eq_nil_of_infix_nil h)
  | c :: s => by
    rw [substAll_cons]
    split_ifs with hcond
    · intro hocc
      rcases infix_append_cases hocc with h1 | h2 | ⟨k, hk0, hkt, htk, _⟩
      · exact htr h1
      · exact not_infix_substAll_self t r ht htr hsuf hd hlen
          ((c :: s).drop t.length) h2
      · exact hsuf k hkt hk0 htk
    · intro hocc
      rcases List.infix_cons_iff.mp hocc with hpre | hinf
      · obtain ⟨t₀, t₁, rfl⟩ : ∃ a l, t = a :: l := by
          cases t with
          | nil => exact absurd rfl ht
          | cons a l => exact ⟨a, l, rfl⟩
        rcases List.cons_prefix_cons.mp hpre with ⟨rfl, ht₁⟩
        rcases eq_or_ne t₁ [] with rfl | hne
        · exact hcond ⟨List.cons_prefix_cons.mpr ⟨rfl, List.nil_prefix⟩, ht⟩
        · have h₁s : t₁ <+: s :=
            prefix_substAll (t₀ :: t₁) (t₀ :: t₁) r htr hd hlen s t₁ hne
              (List.suffix_cons t₀ t₁) ht₁
          exact hcond ⟨List.cons_prefix_cons.mpr ⟨rfl, h₁s⟩, ht⟩
      · exact not_infix_substAll_self t r ht htr hsuf hd hlen s hinf
termination_by s => s.length
decreasing_by
  · have h1 : 0 < t.length := List.length_pos.mpr hcond.2
    simp only [List.length_drop, List.length_cons]
    omega
  · simp

/-- Rewriting any other term `t'` cannot create an occurrence of `t`, under
the same seam conditions. -/
theorem not_infix_substAll (t t' r : List Char)
    (htr : ¬ t <:+: r)
    (hsuf : ∀ k, k < t.length → 0 < k → ¬ t.take k <:+ r)
    (hd : ∀ k, k < t.length → 0 < k → ¬ t.drop k <+: r)
    (hlen : t.length ≤ r.length) :
    ∀ s, ¬ t <:+: s → ¬ t <:+: substAll t' r s
  | [], hs => by
    rw [substAll_nil]
    exact hs
  | c :: s, hs => by
    rw [substAll_cons]
    split_ifs with hcond
    · intro hocc
      rcases infix_append_cases hocc with h1 | h2 | ⟨k, hk0, hkt, htk, _⟩
      · exact htr h1
      · have hs' : ¬ t <:+: (c :: s).drop t'.length :=
          fun hx => hs (hx.trans (List.drop_suffix _ _).isInfix)
        exact not_infix_substAll t t' r htr hsuf hd hlen _ hs' h2
      · exact hsuf k hkt hk0 htk
    · intro hocc
      rcases List.infix_cons_iff.mp hocc with hpre | hinf
      · rcases eq_or_ne t [] with rfl | ht
        · exact hs (List.nil_infix)
        obtain ⟨t₀, t₁, rfl⟩ : ∃ a l, t = a :: l := by
          cases t with
          | nil => exact absurd rfl ht
          | cons a l => exact ⟨a, l, rfl⟩
        rcases List.cons_prefix_cons.mp hpre with ⟨rfl, ht₁⟩
        rcases eq_or_ne t₁ [] with rfl | hne
        · exact hs (List.cons_prefix_cons.mpr ⟨rfl, List.nil_prefix⟩).isInfix
        · have h₁s : t₁ <+: s :=
            prefix_substAll (t₀ :: t₁) t' r htr hd hlen s t₁ hne
              (List.suffix_cons t₀ t₁) ht₁
          exact hs (List.cons_prefix_cons.mpr ⟨rfl, h₁s⟩).isInfix
      · have hs' : ¬ t <:+: s := fun hx => hs (List.infix_cons hx)
        exact not_infix_substAll t t' r htr hsuf hd hlen s hs' hinf
termination_by s => s.length
decreasing_by
  · have h1 : 0 < t'.length := List.length_pos.mpr hcond.2
    simp only [List.length_drop, List.length_cons]
    omega
  · simp

/-- `substAll` is the identity on text with no occurrence of the pattern. -/
theorem substAll_eq_of_no_occurrence (t r : List Char) :
    ∀ s, ¬ t <:+: s → substAll t r s = s
  | [], _ => substAll_nil t r
  | c :: s, hs => by
    rw [substAll_cons, if_neg, substAll_eq_of_no_occurrence t r s
      (fun hx => hs (List.infix_cons hx))]
    rintro ⟨hp, -⟩
    exact hs hp.isInfix

/-- The side conditions under which rewriting with replacement `r` can never
create or keep an occurrence of the term `t`: `t` does not occur in `r`, is no
longer than `r`, and no nonempty proper prefix (suffix) of `t` is a suffix
(prefix) of `r`. -/
def TermSafe (t r : List Char) : Prop :=
  t ≠ [] ∧ t.length ≤ r.length ∧ ¬ t <:+: r ∧
    (∀ k, k < t.length → 0 < k → ¬ t.take k <:+ r) ∧
    (∀ k, k < t.length → 0 < k → ¬ t.drop k <+: r)

instance (t r : List Char) : Decidable (TermSafe t r) := by
  unfold TermSafe
  infer_instance

/-- Sequential replacement of each term of `terms` by `r` — the loop of
`apply_language_policy`, after lowercasing. -/
def scrubLC (terms : List (List Char)) (r : List Char) (s : List Char) : List Char :=
  terms.foldl (fun acc t => substAll t r acc) s

theorem not_infix_scrubLC_of (terms : List (List Char)) (r t : List Char)
    (hsafe : TermSafe t r) :
    ∀ s, ¬ t <:+: s → ¬ t <:+: scrubLC terms r s := by
  induction terms with
  | nil => exact fun s hs => hs
  | cons t' rest ih =>
    intro s hs
    exact ih _ (not_infix_substAll t t' r hsafe.2.2.1 hsafe.2.2.2.1
      hsafe.2.2.2.2 hsafe.2.1 s hs)

theorem not_infix_scrubLC (terms : List (List Char)) (r t : List Char)
    (hall : ∀ t' ∈ terms, TermSafe t' r) (ht : t ∈ terms) :
    ∀ s, ¬ t <:+: scrubLC terms r s := by
  induction terms with
  | nil => cases ht
  | cons t' rest ih =>
    intro s
    rcases List.mem_cons.mp ht with rfl | hmem
    · have hsafe := hall t (List.mem_cons_self t rest)
      have h0 : ¬ t <:+: substAll t r s :=
        not_infix_substAll_self t r hsafe.1 hsafe.2.2.1 hsafe.2.2.2.1
          hsafe.2.2.2.2 hsafe.2.1 s
      exact not_infix_scrubLC_of rest r t hsafe _ h0
    · exact ih (fun x hx => hall x (List.mem_cons_of_mem _ hx)) hmem _

/-- ASCII lowercasing of a character list, modelling `str.lower` /
`re.IGNORECASE` for the plain-ASCII phrases of the language policy. -/
def lowerChars (s : List Char) : List Char := s.map Char.toLower

/-- Case-insensitive `substAll`: matching compares lowercased characters, the
replacement is inserted verbatim — Python
`re.compile(re.escape(term), re.IGNORECASE).sub(repl, s)` for ASCII terms. -/
def substAllCI (t r : List Char) : List Char → List Char
  | [] => []
  | c :: s =>
    if h : lowerChars t <+: lowerChars (c :: s) ∧ t ≠ [] then
      r ++ substAllCI t r ((c :: s).drop t.length)
    else
      c :: substAllCI t r s
termination_by s => s.length
decreasing_by
  · have ht : 0 < t.length := List.length_pos.mpr h.2
    simp only [List.length_drop, List.length_cons]
    omega
  · simp

theorem substAllCI_nil (t r : List Char) : substAllCI t r [] = [] := by
  simp [substAllCI]

theorem substAllCI_cons (t r : List Char) (c : Char) (s : List Char) :
    substAllCI t r (c :: s) =
      if lowerChars t <+: lowerChars (c :: s) ∧ t ≠ [] then
        r ++ substAllCI t r ((c :: s).drop t.length)
      else
        c :: substAllCI t r s := by
  rw [substAllCI]
  rfl

theorem lowerChars_nil : lowerChars [] = [] := rfl

theorem lowerChars_length (s : List Char) : (lowerChars s).length = s.length :=
  List.length_map s Char.toLower

theorem lowerChars_ne_nil {t : List Char} (h : t ≠ []) : lowerChars t ≠ [] := by
  simpa [lowerChars, List.map_eq_nil_iff] using h

theorem lowerChars_append (a b : List Char) :
    lowerChars (a ++ b) = lowerChars a ++ lowerChars b :=
  List.map_append Char.toLower a b

theorem lowerChars_drop (n : ℕ) (s : List Char) :
    lowerChars (s.drop n) = (lowerChars s).drop n :=
  List.map_drop Char.toLower s n

/-- Lowercasing intertwines the case-insensitive and the case-sensitive
rewrite. -/
theorem lowerChars_substAllCI (t r : List Char) :
    ∀ s, lowerChars (substAllCI t r s) =
      substAll (lowerChars t) (lowerChars r) (lowerChars s)
  | [] => by rw [substAllCI_nil, lowerChars_nil, substAll_nil]
  | c :: s => by
    rw [substAllCI_cons]
    split_ifs with hcond
    · rcases hcond with ⟨hp, hne⟩
      have e1 : lowerChars (r ++ substAllCI t r ((c :: s).drop t.length))
          = lowerChars r ++ substAll (lowerChars t) (lowerChars r)
              ((lowerChars (c :: s)).drop (lowerChars t).length) := by
        rw [lowerChars_append, lowerChars_substAllCI t r ((c :: s).drop t.length),
          lowerChars_drop, lowerChars_length]
      rw [e1, show lowerChars (c :: s) = Char.toLower c :: lowerChars s from rfl,
        substAll_cons, if_pos ⟨hp, lowerChars_ne_nil hne⟩]
    · rw [show lowerChars (c :: s) = Char.toLower c :: lowerChars s from rfl,
        substAll_cons, if_neg, show lowerChars (c :: substAllCI t r s)
          = Char.toLower c :: lowerChars (substAllCI t r s) from rfl,
        lowerChars_substAllCI t r s]
      rintro ⟨hp, hne⟩
      exact hcond ⟨hp, fun h => hne (by simp [h, lowerChars])⟩
termination_by s => s.length
decreasing_by
  · have ht : 0 < t.length := List.length_pos.mpr hne
    simp only [List.length_drop, List.length_cons]
    omega
  · simp

/-- `substAllCI` is the identity when the lowered pattern does not occur in
the lowered text. -/
theorem substAllCI_eq_of_no_occurrence (t r : List Char) :
    ∀ s, ¬ lowerChars t <:+: lowerChars s → substAllCI t r s = s
  | [], _ => substAllCI_nil t r
  | c :: s, hs => by
    rw [substAllCI_cons, if_neg, substAllCI_eq_of_no_occurrence t r s (fun hx => by
      exact hs (show lowerChars t <:+: Char.toLower c :: lowerChars s from
        List.infix_cons hx))]
    rintro ⟨hp, -⟩
    exact hs hp.isInfix

/-! The source function and the configured vocabularies. -/

/-- Embeds `apply_language_policy` from src/app/agents/comparison/tools.py:
each forbidden term is substituted case-insensitively and literally
(the pattern is built with `re.escape`) by the fixed phrase
"candidate difference", one term at a time over the whole text.  The
`hedging` argument is accepted and never used, exactly as in the source. -/
def apply_language_policy (text : String) (forbidden : List String)
    (hedging : List String) : String :=
  String.mk (forbidden.foldl (fun result term =>
    substAllCI term.data "candidate difference".data result) text.data)

/-- The configured forbidden phrases (`LanguagePolicyConfig.forbidden`,
src/app/config.py). -/
def forbiddenPhrases : List String :=
  ["damage confirmed", "damage detected", "tenant caused", "fault", "liable"]

/-- The configured hedging phrases (`LanguagePolicyConfig.required_hedging`,
src/app/config.py). -/
def hedgingPhrases : List String :=
  ["candidate difference", "possible", "appears to", "may indicate"]

theorem lowerChars_policy_fold (forbidden : List String) (r : List Char) :
    ∀ s : List Char,
      lowerChars (forbidden.foldl (fun result term => substAllCI term.data r result) s)
        = scrubLC (forbidden.map (fun term => lowerChars term.data))
            (lowerChars r) (lowerChars s) := by
  induction forbidden with
  | nil => intro s; rfl
  | cons f rest ih =>
    intro s
    show lowerChars (rest.foldl _ (substAllCI f.data r s)) = _
    rw [ih (substAllCI f.data r s), lowerChars_substAllCI]
    rfl

theorem policy_fold_id (forbidden : List String) (r : List Char)
    (s : List Char)
    (hs : ∀ f ∈ forbidden, ¬ lowerChars f.data <:+: lowerChars s) :
    forbidden.foldl (fun result term => substAllCI term.data r result) s = s := by
  induction forbidden with
  | nil => rfl
  | cons f rest ih =>
    show rest.foldl _ (substAllCI f.data r s) = s
    rw [substAllCI_eq_of_no_occurrence f.data r s (hs f (List.mem_cons_self f rest))]
    exact ih (fun g hg => hs g (List.mem_cons_of_mem _ hg))

/-- C3: with the configured forbidden list and hedging list, the language
policy filter is idempotent on every string: a second application returns its
input unchanged.  (The filter substitutes each forbidden phrase
case-insensitively and literally, one term at a time over the whole text, and
the replacement phrase can never recreate a forbidden phrase.) -/
theorem apply_language_policy_idempotent (x : String) :
    apply_language_policy (apply_language_policy x forbiddenPhrases hedgingPhrases)
        forbiddenPhrases hedgingPhrases
      = apply_language_policy x forbiddenPhrases hedgingPhrases := by
  unfold apply_language_policy
  congr 1
  apply policy_fold_id
  intro f hf
  show ¬ lowerChars f.data <:+:
    lowerChars (forbiddenPhrases.foldl
      (fun result term => substAllCI term.data "candidate difference".data result) x.data)
  rw [lowerChars_policy_fold]
  have hsafe : ∀ t' ∈ forbiddenPhrases.map (fun term => lowerChars term.data),
      TermSafe t' (lowerChars "candidate difference".data) := by decide
  exact not_infix_scrubLC _ _ _ hsafe
    (List.mem_map_of_mem (fun term => lowerChars term.data) hf) _

/-- C10: the output of `apply_language_policy` does not depend on the hedging
argument — the function ignores it entirely, for every text and forbidden
list. -/
theorem apply_language_policy_hedging_independent (text : String)
    (forbidden h1 h2 : List String) :
    apply_language_policy text forbidden h1 =
      apply_language_policy text forbidden h2 := rfl

/-! ## Comparison pipeline: candidate analysis
(src/app/agents/comparison/graph.py `analyze_candidates_node`,
src/app/agents/comparison/tools.py `parse_analysis_response`) -/

/-- The JSON-shaped analysis payload {analysis, confidence, reason_codes,
needs_closeup} used for a region. -/
structure AnalysisData where
  analysis : String
  confidence : ℚ
  reason_codes : List String
  needs_closeup : Bool
deriving DecidableEq, Repr

/-- A diff region as produced by `extract_candidate_regions` (the fields the
analysis step reads). -/
structure DiffRegion where
  x : ℤ
  y : ℤ
  w : ℤ
  h : ℤ
  area : ℤ
  ssim_delta : ℚ
  move_in_id : ℕ
  move_out_id : ℕ
deriving DecidableEq, Repr

/-- Embeds `parse_analysis_response` from src/app/agents/comparison/tools.py.
JSON decoding (`json.loads` together with the markdown code-fence extraction)
is library code outside the repository, abstracted as the oracle `decode`:
`some d` models a successful decode of the response into the expected shape,
`none` models `json.JSONDecodeError`/`IndexError`.  On failure the source
returns a fixed-shape default payload built from the raw response truncated to
200 characters, confidence 0.3, reason_codes ["other"], needs_closeup True. -/
def parse_analysis_response (decode : String → Option AnalysisData)
    (response : String) : AnalysisData :=
  match decode response with
  | some d => d
  | none =>
    { analysis := response.take 200, confidence := 3/10,
      reason_codes := ["other"], needs_closeup := true }

/-- Per-region model interaction in `analyze_candidates_node`: either no
provider is configured (`get_llm_provider` raised RuntimeError), the call
itself failed, or it returned a raw response string. -/
inductive ModelOutcome where
  | noProvider : ModelOutcome
  | callFailed : ModelOutcome
  | response : String → ModelOutcome
deriving DecidableEq, Repr

/-- The analysis payload `analyze_candidates_node` uses for one region, by
model outcome (src/app/agents/comparison/graph.py). -/
def region_analysis (decode : String → Option AnalysisData)
    (region : DiffRegion) : ModelOutcome → AnalysisData
  | .noProvider =>
    { analysis := "Possible change detected by structural comparison",
      confidence := min (region.ssim_delta * 2) (9/10),
      reason_codes := ["other"], needs_closeup := true }
  | .callFailed =>
    { analysis := "Automated analysis unavailable — manual review recommended",
      confidence := region.ssim_delta,
      reason_codes := ["other"], needs_closeup := true }
  | .response raw => parse_analysis_response decode raw

/-- A candidate as assembled by `analyze_candidates_node`. -/
structure Candidate where
  x : ℤ
  y : ℤ
  w : ℤ
  h : ℤ
  confidence : ℚ
  reason_codes : List String
  analysis : String
  needs_closeup : Bool
  move_in_id : ℕ
  move_out_id : ℕ
deriving DecidableEq, Repr

/-- The candidate dict appended by `analyze_candidates_node` for an admitted
region. -/
def mkCandidate (region : DiffRegion) (a : AnalysisData) : Candidate :=
  { x := region.x, y := region.y, w := region.w, h := region.h,
    confidence := a.confidence, reason_codes := a.reason_codes,
    analysis := a.analysis, needs_closeup := a.needs_closeup,
    move_in_id := region.move_in_id, move_out_id := region.move_out_id }

/-- Embeds the loop of `analyze_candidates_node`: each region's analysis comes
from its model outcome (the oracle `outcome`, indexed by region position), and
a region becomes a candidate iff its confidence is at least `min_conf`, in
input order.  Crop-file bookkeeping, which only feeds the model call, is
folded into the outcome oracle. -/
def analyze_candidates_node (decode : String → Option AnalysisData)
    (outcome : ℕ → ModelOutcome) (min_conf : ℚ) :
    List DiffRegion → ℕ → List Candidate
  | [], _ => []
  | region :: rest, i =>
    let a := region_analysis decode region (outcome i)
    if min_conf ≤ a.confidence then
      mkCandidate region a :: analyze_candidates_node decode outcome min_conf rest (i + 1)
    else
      analyze_candidates_node decode outcome min_conf rest (i + 1)

/-- The fixed reason-code vocabulary of the candidate data model (spec §3 and
the analysis prompt in src/app/agents/comparison/prompts.py). -/
def reasonCodeVocabulary : List String :=
  ["scuff", "stain", "hole", "crack", "discoloration", "missing_item",
   "added_item", "wear", "other"]

/-- C4 counterexample: when the model response decodes to valid JSON whose
reason_codes contain a code outside the fixed vocabulary, the code reaches the
finalized candidate verbatim — nothing maps it to "other". -/
theorem analyze_candidates_unmapped_code :
    (analyze_candidates_node
        (fun _ => some ⟨"water mark", 1/2, ["bogus_code"], false⟩)
        (fun _ => ModelOutcome.response "resp")
        (3/10) [⟨0, 0, 10, 10, 100, 1/2, 1, 2⟩] 0).map (fun c => c.reason_codes)
      = [["bogus_code"]] ∧ "bogus_code" ∉ reasonCodeVocabulary := by
  constructor
  · norm_num [analyze_candidates_node, region_analysis, parse_analysis_response,
      mkCandidate]
  · decide

/-- C4 (amended): candidate reason_codes are ["other"] — inside the
vocabulary — on every fallback path (no provider, failed call, unparseable
response), but a successfully decoded response's codes are passed through
without any vocabulary check; hence every emitted candidate's reason_codes
are a subset of the vocabulary exactly under the assumption that every decoded
payload respects it. -/
theorem analyze_candidates_reason_codes (decode : String → Option AnalysisData)
    (outcome : ℕ → ModelOutcome) (min_conf : ℚ) (regions : List DiffRegion) (i : ℕ)
    (hdec : ∀ raw d, decode raw = some d → d.reason_codes ⊆ reasonCodeVocabulary) :
    ∀ c ∈ analyze_candidates_node decode outcome min_conf regions i,
      c.reason_codes ⊆ reasonCodeVocabulary := by
  induction regions generalizing i with
  | nil =>
    intro c hc
    cases hc
  | cons region rest ih =>
    intro c hc
    rw [analyze_candidates_node] at hc
    split_ifs at hc with hconf
    · rcases List.mem_cons.mp hc with rfl | hmem
      · show (region_analysis decode region (outcome i)).reason_codes ⊆ _
        cases outcome i with
        | noProvider =>
          intro a ha
          simp [region_analysis] at ha
          subst ha
          decide
        | callFailed =>
          intro a ha
          simp [region_analysis] at ha
          subst ha
          decide
        | response raw =>
          simp only [region_analysis, parse_analysis_response]
          cases hdecode : decode raw with
          | some d => exact hdec raw d hdecode
          | none =>
            intro a ha
            simp at ha
            subst ha
            decide
      · exact ih (i + 1) c hmem
    · exact ih (i + 1) c hc

/-- Witness for `analyze_candidates_reason_codes`: a failed call on one
region; the vacuous decode hypothesis is discharged at `fun _ => none`, and
the emitted candidate's codes lie in the vocabulary. -/
theorem analyze_candidates_reason_codes_witness :
    (⟨0, 0, 10, 10, 1/2, ["other"],
        "Automated analysis unavailable — manual review recommended", true, 1, 2⟩ :
      Candidate).reason_codes ⊆ reasonCodeVocabulary :=
  analyze_candidates_reason_codes (fun _ => none)
    (fun _ => ModelOutcome.callFailed) (3/10)
    [⟨0, 0, 10, 10, 100, 1/2, 1, 2⟩] 0 (fun _ _ h => nomatch h) _ (by
      rw [analyze_candidates_node, if_pos (by norm_num [region_analysis])]
      exact List.mem_cons_self _ _)

/-- C5 counterexample: on a parse failure the fallback confidence is the fixed
default 0.3 and not the region's dissimilarity proxy (here ssim_delta = 0.8),
refuting the claim that both failure kinds use ssim_delta. -/
theorem region_analysis_parse_failure_confidence :
    (region_analysis (fun _ => none) ⟨0, 0, 10, 10, 100, 4/5, 1, 2⟩
        (ModelOutcome.response "not json")).confidence = 3/10 ∧
      (⟨0, 0, 10, 10, 100, 4/5, 1, 2⟩ : DiffRegion).ssim_delta = 4/5 ∧
      ((3 : ℚ)/10) ≠ 4/5 :=
  ⟨rfl, rfl, by norm_num⟩

/-- C5 (amended): when the model call itself fails, the fallback analysis has
confidence equal to the region's ssim_delta; when the call succeeds but the
response cannot be decoded as JSON, the fallback has the fixed default
confidence 0.3 and carries the raw text truncated to 200 characters.  In both
cases reason_codes = ["other"] and needs_closeup = true. -/
theorem region_analysis_fallbacks (decode : String → Option AnalysisData)
    (region : DiffRegion) (raw : String) :
    region_analysis decode region ModelOutcome.callFailed =
      { analysis := "Automated analysis unavailable — manual review recommended",
        confidence := region.ssim_delta, reason_codes := ["other"],
        needs_closeup := true } ∧
    (decode raw = none →
      region_analysis decode region (ModelOutcome.response raw) =
        { analysis := raw.take 200, confidence := 3/10,
          reason_codes := ["other"], needs_closeup := true }) := by
  refine ⟨rfl, fun h => ?_⟩
  simp [region_analysis, parse_analysis_response, h]

/-- Witness for `region_analysis_fallbacks`: a concrete undecodable response,
the decode hypothesis discharged by `rfl`. -/
theorem region_analysis_fallbacks_witness :
    region_analysis (fun _ => none) ⟨0, 0, 10, 10, 100, 4/5, 1, 2⟩
        (ModelOutcome.response "not json") =
      { analysis := ("not json" : String).take 200, confidence := 3/10,
        reason_codes := ["other"], needs_closeup := true } :=
  (region_analysis_fallbacks (fun _ => none) ⟨0, 0, 10, 10, 100, 4/5, 1, 2⟩
    "not json").2 rfl

/-! ## Comparison pipeline: follow-up composition
(src/app/agents/comparison/graph.py `compose_followups_node`,
`_default_followup`) -/

/-- A follow-up message handed to the caller. -/
structure Followup where
  candidate_index : ℕ
  message : String
  needs_closeup : Bool
deriving DecidableEq, Repr

/-- Embeds `_default_followup`: the deterministic template message, with the
analysis truncated to 150 characters. -/
def default_followup (cand : Candidate) : String :=
  "A candidate difference was identified in this area. The analysis indicates: "
    ++ cand.analysis.take 150
    ++ ". Could you please confirm or provide additional context about this area?"

/-- Embeds the loop of `compose_followups_node`: for each candidate, in order,
the message is either the model's reply run through the language policy
(oracle `chat` returns `some reply`) or the deterministic template (`none`:
no provider configured, or the call failed); the appended followup's
candidate_index is the length of the list built so far. -/
def compose_followups_node (forbidden hedging : List String)
    (chat : ℕ → Candidate → Option String) (cands : List Candidate) :
    List Followup :=
  cands.foldl (fun followups cand =>
    let message :=
      match chat followups.length cand with
      | some reply => apply_language_policy reply forbidden hedging
      | none => default_followup cand
    followups ++ [⟨followups.length, message, cand.needs_closeup⟩]) []

theorem compose_followups_foldl_length (forbidden hedging : List String)
    (chat : ℕ → Candidate → Option String) :
    ∀ (cands : List Candidate) (acc : List Followup),
      (cands.foldl (fun followups cand =>
        let message :=
          match chat followups.length cand with
          | some reply => apply_language_policy reply forbidden hedging
          | none => default_followup cand
        followups ++ [⟨followups.length, message, cand.needs_closeup⟩]) acc).length
      = acc.length + cands.length := by
  intro cands
  induction cands with
  | nil => intro acc; simp
  | cons c cs ih =>
    intro acc
    rw [List.foldl_cons, ih]
    simp
    omega

theorem compose_followups_foldl_index (forbidden hedging : List String)
    (chat : ℕ → Candidate → Option String) :
    ∀ (cands : List Candidate) (acc : List Followup),
      (∀ (j : ℕ) (f : Followup), acc[j]? = some f → f.candidate_index = j) →
      ∀ (j : ℕ) (f : Followup),
        (cands.foldl (fun followups cand =>
          let message :=
            match chat followups.length cand with
            | some reply => apply_language_policy reply forbidden hedging
            | none => default_followup cand
          followups ++ [⟨followups.length, message, cand.needs_closeup⟩]) acc)[j]?
          = some f → f.candidate_index = j := by
  intro cands
  induction cands with
  | nil => exact fun acc h => h
  | cons c cs ih =>
    intro acc hacc
    rw [List.foldl_cons]
    refine ih _ ?_
    intro j f hj
    simp only [List.getElem?_append] at hj
    by_cases hlt : j < acc.length
    · rw [if_pos hlt] at hj
      exact hacc j f hj
    · rw [if_neg hlt] at hj
      push_neg at hlt
      rcases Nat.lt_or_ge (j - acc.length) 1 with h1 | h1
      · have hj0 : j - acc.length = 0 := by omega
        rw [hj0] at hj
        simp only [List.getElem?_cons_zero, Option.some.injEq] at hj
        subst hj
        show acc.length = j
        omega
      · rw [List.getElem?_eq_none (by simpa using h1)] at hj
        cases hj

/-- C9: for every candidate list of length N, the compose-followups step emits
exactly N followups, in candidate order, with followups[i].candidate_index = i
for every i < N — regardless of whether each message came from the model or
from the deterministic template fallback (the chat oracle is universally
quantified). -/
theorem compose_followups_pairing (forbidden hedging : List String)
    (chat : ℕ → Candidate → Option String) (cands : List Candidate) :
    (compose_followups_node forbidden hedging chat cands).length = cands.length ∧
    ∀ (i : ℕ) (f : Followup),
      (compose_followups_node forbidden hedging chat cands)[i]? = some f →
      f.candidate_index = i := by
  constructor
  · rw [compose_followups_node, compose_followups_foldl_length]
    simp
  · exact compose_followups_foldl_index forbidden hedging chat cands []
      (fun j f h => by cases h)

/-- Witness for `compose_followups_pairing`: two template followups; the
second has candidate_index 1. -/
theorem compose_followups_pairing_witness :
    (⟨1, default_followup ⟨0, 0, 1, 1, 1/2, ["other"], "x", false, 1, 2⟩,
        false⟩ : Followup).candidate_index = 1 :=
  (compose_followups_pairing [] [] (fun _ _ => none)
      [⟨0, 0, 1, 1, 1/2, ["other"], "x", false, 1, 2⟩,
       ⟨0, 0, 1, 1, 1/2, ["other"], "x", false, 1, 2⟩]).2 1 _ rfl

/-! ## Coverage review: checklist aggregation
(src/app/agents/coverage_review/tools.py `get_checklist`,
`aggregate_coverage`) -/

/-- Python `sub in s` for strings: substring containment. -/
def strIn (sub : List Char) : List Char → Bool
  | [] => sub.isEmpty
  | c :: s => sub.isPrefixOf (c :: s) || strIn sub s

/-- Python `str.strip()`: remove leading and trailing whitespace. -/
def stripChars (l : List Char) : List Char :=
  ((l.dropWhile Char.isWhitespace).reverse.dropWhile Char.isWhitespace).reverse

/-- Python `item.split("-")[0]`: the characters before the first dash (the
whole string when there is none). -/
def firstComponent (s : String) : List Char :=
  s.data.takeWhile (fun c => c ≠ '-')

/-- The `ROOM_CHECKLISTS` dict of src/app/agents/coverage_review/tools.py, in
insertion order. -/
def ROOM_CHECKLISTS : List (String × List String) :=
  [("default",
    ["wall-left", "wall-right", "wall-far", "wall-near", "floor", "ceiling", "door"]),
   ("Living Room",
    ["wall-left", "wall-right", "wall-far", "wall-near", "floor", "ceiling", "door",
     "window"]),
   ("Kitchen",
    ["wall-left", "wall-right", "wall-far", "wall-near", "floor", "ceiling", "door",
     "countertop", "appliances"]),
   ("Bedroom",
    ["wall-left", "wall-right", "wall-far", "wall-near", "floor", "ceiling", "door",
     "window", "closet"]),
   ("Bathroom",
    ["wall-left", "wall-right", "wall-far", "wall-near", "floor", "ceiling", "door",
     "fixtures", "mirror"]),
   ("Hallway",
    ["wall-left", "wall-right", "floor", "ceiling", "door"])]

/-- Embeds `get_checklist`: exact key match, then the first key whose
lowercase form is a substring of the lowercase room type, then the default
checklist.  (The final `[]` arm is unreachable: "default" is always a key.) -/
def get_checklist (room_type : String) : List String :=
  match ROOM_CHECKLISTS.find? (fun kv => kv.1 == room_type) with
  | some kv => kv.2
  | none =>
    match ROOM_CHECKLISTS.find? (fun kv =>
        strIn (lowerChars kv.1.data) (lowerChars room_type.data)) with
    | some kv => kv.2
    | none =>
      match ROOM_CHECKLISTS.find? (fun kv => kv.1 == "default") with
      | some kv => kv.2
      | none => []

/-- A parsed per-image scene summary (`SceneSummary` of the spec; the dict
produced by `parse_summary_response`). -/
structure SceneSummary where
  visible_surfaces : List String
  fixtures : List String
  coverage_areas : List String
  quality_notes : String
deriving DecidableEq, Repr

/-- The coverage aggregation result. -/
structure CoverageResult where
  coverage_pct : ℚ
  covered : Finset String
  missing : List String
  checklist : List String

/-- Python `round(x, 1)`, modelled as round-half-up on rationals.  (Python
rounds floats half-to-even; the two differ only at exact .x5 ties, which the
aggregation's values 100.0 and 100/7 do not hit.) -/
def round1 (q : ℚ) : ℚ := (⌊q * 10 + 1/2⌋ : ℤ) / 10

/-- One coverage_area string's contribution to `covered`: the first checklist
item matching by case-insensitive substring containment in either direction
(the loop breaks after the first hit), then the fixed keyword rules. -/
def area_step (checklist : List String) (covered : Finset String)
    (area : String) : Finset String :=
  let area_lower := stripChars (lowerChars area.data)
  let covered :=
    match checklist.find? (fun item =>
        strIn (lowerChars item.data) area_lower
          || strIn area_lower (lowerChars item.data)) with
    | some item => insert item covered
    | none => covered
  let covered :=
    if strIn "counter".data area_lower then insert "countertop" covered else covered
  let covered :=
    if strIn "appliance".data area_lower || strIn "stove".data area_lower
        || strIn "fridge".data area_lower then
      insert "appliances" covered
    else covered
  let covered :=
    if strIn "closet".data area_lower then insert "closet" covered else covered
  let covered :=
    if strIn "mirror".data area_lower then insert "mirror" covered else covered
  let covered :=
    if strIn "fixture".data area_lower || strIn "sink".data area_lower
        || strIn "toilet".data area_lower || strIn "tub".data area_lower then
      insert "fixtures" covered
    else covered
  covered

/-- One visible_surfaces string's contribution to `covered`: every checklist
item whose lowercase form occurs in the lowercase surface, or whose first
dash-component the surface starts with (no break in this loop). -/
def surface_step (checklist : List String) (covered : Finset String)
    (surface : String) : Finset String :=
  let surface_lower := lowerChars surface.data
  checklist.foldl (fun covered item =>
    if strIn (lowerChars item.data) surface_lower
        || (firstComponent item).isPrefixOf surface_lower then
      insert item covered
    else covered) covered

/-- The covered set built by `aggregate_coverage`: union over all summaries'
coverage_areas (with keyword rules) and visible_surfaces matches, finally
intersected with the checklist. -/
def coveredSet (summaries : List SceneSummary) (checklist : List String) :
    Finset String :=
  let covered : Finset String :=
    summaries.foldl (fun covered s =>
      s.coverage_areas.foldl (area_step checklist) covered) ∅
  let covered :=
    summaries.foldl (fun covered s =>
      s.visible_surfaces.foldl (surface_step checklist) covered) covered
  covered ∩ checklist.toFinset

/-- Embeds `aggregate_coverage` from src/app/agents/coverage_review/tools.py.
The Python `set` is a `Finset String`; the claims do not consult the
`sorted(covered)` list ordering, so `covered` is returned as the set. -/
def aggregate_coverage (summaries : List SceneSummary) (room_type : String) :
    CoverageResult :=
  let checklist := get_checklist room_type
  let covered := coveredSet summaries checklist
  let missing := checklist.filter (fun item => item ∉ covered)
  let pct : ℚ :=
    if checklist ≠ [] then (covered.card : ℚ) / (checklist.length : ℚ) * 100
    else 100
  { coverage_pct := round1 pct, covered := covered, missing := missing,
    checklist := checklist }

theorem round1_eq (q : ℚ) (n : ℤ) (h1 : (n : ℚ) ≤ q * 10 + 1/2)
    (h2 : q * 10 + 1/2 < n + 1) : round1 q = (n : ℚ) / 10 := by
  unfold round1
  rw [Int.floor_eq_iff.mpr ⟨h1, by exact_mod_cast h2⟩]

/-- C7: for the default 7-item checklist, one summary listing all 7 items
verbatim in coverage_areas yields coverage_pct = 100.0 and missing = []; one
listing only ["wall-left"] yields coverage_pct = 14.3 (= round(1/7×100, 1))
and a missing list of exactly the other six items in checklist order; and for
every input the covered set is intersected with the checklist, so items
outside the checklist are always dropped. -/
theorem aggregate_coverage_scenarios :
    (aggregate_coverage [⟨[], [], ["wall-left", "wall-right", "wall-far",
        "wall-near", "floor", "ceiling", "door"], ""⟩] "default").coverage_pct
      = 100 ∧
    (aggregate_coverage [⟨[], [], ["wall-left", "wall-right", "wall-far",
        "wall-near", "floor", "ceiling", "door"], ""⟩] "default").missing = [] ∧
    (aggregate_coverage [⟨[], [], ["wall-left"], ""⟩] "default").coverage_pct
      = 143/10 ∧
    (aggregate_coverage [⟨[], [], ["wall-left"], ""⟩] "default").missing
      = ["wall-right", "wall-far", "wall-near", "floor", "ceiling", "door"] ∧
    ∀ (summaries : List SceneSummary) (room_type : String),
      (aggregate_coverage summaries room_type).covered ⊆
        ((aggregate_coverage summaries room_type).checklist).toFinset := by
  refine ⟨?_, by decide, ?_, by decide, ?_⟩
  · show round1 (if get_checklist "default" ≠ [] then
        ((coveredSet [⟨[], [], ["wall-left", "wall-right", "wall-far",
            "wall-near", "floor", "ceiling", "door"], ""⟩]
          (get_checklist "default")).card : ℚ)
          / ((get_checklist "default").length : ℚ) * 100
      else 100) = 100
    rw [if_pos (by decide),
      show (coveredSet [⟨[], [], ["wall-left", "wall-right", "wall-far",
          "wall-near", "floor", "ceiling", "door"], ""⟩]
        (get_checklist "default")).card = 7 from by decide,
      show (get_checklist "default").length = 7 from by decide,
      round1_eq _ 1000 (by norm_num) (by norm_num)]
    norm_num
  · show round1 (if get_checklist "default" ≠ [] then
        ((coveredSet [⟨[], [], ["wall-left"], ""⟩]
          (get_checklist "default")).card : ℚ)
          / ((get_checklist "default").length : ℚ) * 100
      else 100) = 143/10
    rw [if_pos (by decide),
      show (coveredSet [⟨[], [], ["wall-left"], ""⟩]
        (get_checklist "default")).card = 1 from by decide,
      show (get_checklist "default").length = 7 from by decide,
      round1_eq _ 143 (by norm_num) (by norm_num)]
    norm_num
  · intro summaries room_type
    exact Finset.inter_subset_right

/-! ## Comparison pipeline: image pairing
(src/app/agents/comparison/graph.py `pair_images_node`) -/

/-- A capture image as read by the pairer. -/
structure CaptureImage where
  id : ℕ
  file_path : String
  orientation_hint : String
  seq : ℤ
deriving DecidableEq, Repr

/-- An image pair produced by the pairer. -/
structure ImagePair where
  move_in_path : String
  move_out_path : String
  orientation : String
  move_in_id : ℕ
  move_out_id : ℕ
deriving DecidableEq, Repr

/-- Python dict insertion: overwriting an existing key keeps its original
position (CPython 3.7+ semantics); a new key is appended. -/
def dictInsert (k : String) (v : CaptureImage) :
    List (String × CaptureImage) → List (String × CaptureImage)
  | [] => [(k, v)]
  | (k', v') :: rest =>
    if k' = k then (k, v) :: rest else (k', v') :: dictInsert k v rest

/-- The dict comprehension `{img.orientation_hint: img for img in mi}` —
note that a later move-in image with the same hint overwrites an earlier
one. -/
def hintDict (mi : List CaptureImage) : List (String × CaptureImage) :=
  mi.foldl (fun d img => dictInsert img.orientation_hint img d) []

def dictLookup (k : String) (d : List (String × CaptureImage)) :
    Option CaptureImage :=
  (d.find? (fun kv => kv.1 == k)).map (fun kv => kv.2)

def dictDelete (k : String) (d : List (String × CaptureImage)) :
    List (String × CaptureImage) :=
  d.filter (fun kv => kv.1 ≠ k)

/-- The first, hint-matching pass of `pair_images_node`: walk the move-out
list; a nonempty hint present in the dict yields a pair and deletes the
entry (each move-in image consumed at most once). -/
def hintPass : List CaptureImage → List (String × CaptureImage) →
    List ImagePair × List (String × CaptureImage)
  | [], d => ([], d)
  | o :: os, d =>
    if o.orientation_hint ≠ "" then
      match dictLookup o.orientation_hint d with
      | some m =>
        let rest := hintPass os (dictDelete o.orientation_hint d)
        (⟨m.file_path, o.file_path, o.orientation_hint, m.id, o.id⟩ :: rest.1,
          rest.2)
      | none => hintPass os d
    else hintPass os d

/-- Stable insertion of an image into a seq-ascending list: it goes after
every element whose seq is not greater. -/
def insertBySeq (x : CaptureImage) : List CaptureImage → List CaptureImage
  | [] => [x]
  | y :: ys => if y.seq ≤ x.seq then y :: insertBySeq x ys else x :: y :: ys

/-- Stable ascending sort by capture sequence number — the semantics of
Python's `sorted`/`list.sort` with `key=lambda x: x.get("seq", 0)`. -/
def sortBySeq : List CaptureImage → List CaptureImage
  | [] => []
  | x :: xs => insertBySeq x (sortBySeq xs)

/-- Embeds `pair_images_node`: the hint pass over the move-out images, then
sequence-order pairing of the leftovers (move-out images not paired yet,
zipped against the dict's surviving values, both sorted by seq). -/
def pair_images_node (mi mo : List CaptureImage) : List ImagePair :=
  let fp := hintPass mo (hintDict mi)
  let pairs := fp.1
  let unpaired_mi := sortBySeq (fp.2.map (fun kv => kv.2))
  let unpaired_mo := sortBySeq (mo.filter (fun img =>
    ¬ pairs.any (fun p => p.move_out_id = img.id)))
  pairs ++ (unpaired_mo.zip unpaired_mi).map (fun om =>
    ⟨om.2.file_path, om.1.file_path, "seq_match", om.2.id, om.1.id⟩)

/-- C6 counterexample: two move-in images sharing the orientation hint "h".
The dict comprehension keeps only the later one, so after the first pass
consumes it, the earlier move-in image (id 1) is neither paired nor available
as a leftover — the hintless move-out image (id 4) stays unpaired even though
an unconsumed move-in image exists, refuting "every move-in image not consumed
in the first pass is available as a leftover for the second pass". -/
theorem pair_images_node_duplicate_hint_counterexample :
    pair_images_node
        [⟨1, "a.jpg", "h", 0⟩, ⟨2, "b.jpg", "h", 1⟩]
        [⟨3, "c.jpg", "h", 0⟩, ⟨4, "d.jpg", "", 0⟩]
      = [⟨"b.jpg", "c.jpg", "h", 2, 3⟩] ∧
    (∀ p ∈ pair_images_node
        [⟨1, "a.jpg", "h", 0⟩, ⟨2, "b.jpg", "h", 1⟩]
        [⟨3, "c.jpg", "h", 0⟩, ⟨4, "d.jpg", "", 0⟩],
      p.move_in_id ≠ 1 ∧ p.move_out_id ≠ 4) := by
  constructor
  · rfl
  · decide

theorem dictInsert_fresh (k : String) (v : CaptureImage) :
    ∀ d : List (String × CaptureImage), (∀ kv ∈ d, kv.1 ≠ k) →
      dictInsert k v d = d ++ [(k, v)]
  | [], _ => rfl
  | kv' :: rest, h => by
    rw [dictInsert]
    rw [if_neg (h kv' (List.mem_cons_self kv' rest)),
      dictInsert_fresh k v rest (fun kv hkv => h kv (List.mem_cons_of_mem _ hkv))]
    rfl

/-- With pairwise distinct move-in hints the dict comprehension keeps every
move-in image, in order. -/
theorem hintDict_eq_of_nodup (mi : List CaptureImage)
    (h : (mi.map (fun m => m.orientation_hint)).Nodup) :
    hintDict mi = mi.map (fun m => (m.orientation_hint, m)) := by
  have main : ∀ (l : List CaptureImage) (d₀ : List (String × CaptureImage)),
      (l.map (fun m => m.orientation_hint)).Nodup →
      (∀ kv ∈ d₀, kv.1 ∉ l.map (fun m => m.orientation_hint)) →
      l.foldl (fun d img => dictInsert img.orientation_hint img d) d₀
        = d₀ ++ l.map (fun m => (m.orientation_hint, m)) := by
    intro l
    induction l with
    | nil => intro d₀ _ _; simp
    | cons m rest ih =>
      intro d₀ hnd hfresh
      rw [List.foldl_cons,
        dictInsert_fresh m.orientation_hint m d₀ (fun kv hkv => by
          have := hfresh kv hkv
          simp only [List.map_cons, List.mem_cons, not_or] at this
          exact this.1),
        ih (d₀ ++ [(m.orientation_hint, m)])
          (by simpa using (List.nodup_cons.mp (by simpa using hnd)).2)
          (by
            intro kv hkv
            rcases List.mem_append.mp hkv with hkv | hkv
            · have := hfresh kv hkv
              simp only [List.map_cons, List.mem_cons, not_or] at this
              exact this.2
            · simp only [List.mem_singleton] at hkv
              subst hkv
              exact (List.nodup_cons.mp (by simpa using hnd)).1)]
      simp
  exact main mi [] h (by simp)

theorem hintPass_snd_sublist (mo : List CaptureImage) :
    ∀ d, ((hintPass mo d).2).Sublist d := by
  induction mo with
  | nil => intro d; exact List.Sublist.refl d
  | cons o os ih =>
    intro d
    rw [hintPass]
    split_ifs with hhint
    · cases hlk : dictLookup o.orientation_hint d with
      | some m =>
        exact ((ih (dictDelete o.orientation_hint d)).trans
          (List.filter_sublist d))
      | none => exact ih d
    · exact ih d

theorem dictLookup_some {k : String} {d : List (String × CaptureImage)}
    {m : CaptureImage} (h : dictLookup k d = some m) :
    ∃ kv ∈ d, kv.1 = k ∧ kv.2 = m := by
  unfold dictLookup at h
  cases hfind : d.find? (fun kv => kv.1 == k) with
  | none => rw [hfind] at h; cases h
  | some kv =>
    rw [hfind] at h
    simp only [Option.map_some', Option.some.injEq] at h
    exact ⟨kv, List.mem_of_find?_eq_some hfind,
      by simpa using List.find?_some hfind, h⟩

/-- Every first-pass pair joins a surviving dict entry to a move-out image
with the identical nonempty hint. -/
theorem hintPass_pairs_shape (mo : List CaptureImage) :
    ∀ d, (∀ kv ∈ d, kv.1 = kv.2.orientation_hint) →
      ∀ p ∈ (hintPass mo d).1,
        ∃ kv ∈ d, ∃ o ∈ mo, kv.2.orientation_hint = o.orientation_hint ∧
          o.orientation_hint ≠ "" ∧
          p = ⟨kv.2.file_path, o.file_path, o.orientation_hint, kv.2.id, o.id⟩ := by
  induction mo with
  | nil => intro d _ p hp; cases hp
  | cons o os ih =>
    intro d hwk p hp
    rw [hintPass] at hp
    split_ifs at hp with hhint
    · cases hlk : dictLookup o.orientation_hint d with
      | some m =>
        rw [hlk] at hp
        simp only [List.mem_cons] at hp
        rcases hp with rfl | hp
        · rcases dictLookup_some hlk with ⟨kv, hkv, hk1, hk2⟩
          refine ⟨kv, hkv, o, List.mem_cons_self o os, ?_, hhint, ?_⟩
          · exact (hwk kv hkv).symm.trans hk1
          · rw [hk2]
        · rcases ih (dictDelete o.orientation_hint d)
              (fun kv hkv => hwk kv (List.mem_of_mem_filter hkv)) p hp with
            ⟨kv, hkv, o', ho', h1, h2, h3⟩
          exact ⟨kv, List.mem_of_mem_filter hkv, o', List.mem_cons_of_mem o ho',
            h1, h2, h3⟩
      | none =>
        rw [hlk] at hp
        rcases ih d hwk p hp with ⟨kv, hkv, o', ho', h1, h2, h3⟩
        exact ⟨kv, hkv, o', List.mem_cons_of_mem o ho', h1, h2, h3⟩
    · rcases ih d hwk p hp with ⟨kv, hkv, o', ho', h1, h2, h3⟩
      exact ⟨kv, hkv, o', List.mem_cons_of_mem o ho', h1, h2, h3⟩

/-- Entries of `hintDict` are keyed by their value's hint. -/
theorem hintDict_wellKeyed (mi : List CaptureImage) :
    ∀ kv ∈ hintDict mi, kv.1 = kv.2.orientation_hint := by
  have step : ∀ (k : String) (v : CaptureImage) (d : List (String × CaptureImage)),
      k = v.orientation_hint → (∀ kv ∈ d, kv.1 = kv.2.orientation_hint) →
      ∀ kv ∈ dictInsert k v d, kv.1 = kv.2.orientation_hint := by
    intro k v d
    induction d with
    | nil =>
      intro hk _ kv hkv
      simp only [dictInsert, List.mem_singleton] at hkv
      subst hkv
      exact hk
    | cons kv' rest ih =>
      intro hk hd kv hkv
      rw [dictInsert] at hkv
      split_ifs at hkv with he
      · rcases List.mem_cons.mp hkv with rfl | hkv
        · exact hk
        · exact hd kv (List.mem_cons_of_mem _ hkv)
      · rcases List.mem_cons.mp hkv with rfl | hkv
        · exact hd kv' (List.mem_cons_self kv' rest)
        · exact ih hk (fun x hx => hd x (List.mem_cons_of_mem _ hx)) kv hkv
  have main : ∀ (l : List CaptureImage) (d₀ : List (String × CaptureImage)),
      (∀ kv ∈ d₀, kv.1 = kv.2.orientation_hint) →
      ∀ kv ∈ l.foldl (fun d img => dictInsert img.orientation_hint img d) d₀,
        kv.1 = kv.2.orientation_hint := by
    intro l
    induction l with
    | nil => intro d₀ h; exact h
    | cons m rest ih =>
      intro d₀ h
      rw [List.foldl_cons]
      exact ih _ (step m.orientation_hint m d₀ rfl h)
  exact main mi [] (by simp)

/-- With pairwise distinct dict ids, the first pass consumes each dict entry
at most once: the pairs' move-in ids are distinct, drawn from the dict, and
absent from the surviving dict. -/
theorem hintPass_ids (mo : List CaptureImage) :
    ∀ d, (d.map (fun kv => kv.2.id)).Nodup →
      ((hintPass mo d).1.map (fun p => p.move_in_id)).Nodup ∧
      (∀ x ∈ (hintPass mo d).1.map (fun p => p.move_in_id),
        x ∈ d.map (fun kv => kv.2.id) ∧
          x ∉ ((hintPass mo d).2).map (fun kv => kv.2.id)) := by
  induction mo with
  | nil => intro d _; exact ⟨List.nodup_nil, fun x hx => by cases hx⟩
  | cons o os ih =>
    intro d hnd
    rw [hintPass]
    split_ifs with hhint
    · cases hlk : dictLookup o.orientation_hint d with
      | some m =>
        have hdel : (dictDelete o.orientation_hint d).Sublist d :=
          List.filter_sublist d
        have hnd' : ((dictDelete o.orientation_hint d).map
            (fun kv => kv.2.id)).Nodup := hnd.sublist (hdel.map _)
        rcases ih (dictDelete o.orientation_hint d) hnd' with ⟨ihnd, ihmem⟩
        rcases dictLookup_some hlk with ⟨kv₀, hkv₀, hk1, hk2⟩
        have hmid : m.id ∉ ((dictDelete o.orientation_hint d).map
            (fun kv => kv.2.id)) := by
          intro hmem
          rcases List.mem_map.mp hmem with ⟨kv, hkv, hid⟩
          have hkvd : kv ∈ d := List.mem_of_mem_filter hkv
          have : kv = kv₀ := by
            apply List.inj_on_of_nodup_map hnd hkvd hkv₀
            rw [hid, hk2]
          subst this
          have : kv.1 ≠ o.orientation_hint := by
            have := List.of_mem_filter hkv
            simpa using this
          exact this hk1
        constructor
        · simp only [List.map_cons]
          refine List.nodup_cons.mpr ⟨?_, ihnd⟩
          intro hmem
          exact hmid ((ihmem m.id hmem).1)
        · intro x hx
          simp only [List.map_cons, List.mem_cons] at hx
          rcases hx with rfl | hx
          · refine ⟨?_, ?_⟩
            · exact List.mem_map.mpr ⟨kv₀, hkv₀, by rw [hk2]⟩
            · intro hmem
              have hsub : ((hintPass os (dictDelete o.orientation_hint d)).2).Sublist
                  (dictDelete o.orientation_hint d) := hintPass_snd_sublist os _
              exact hmid (List.Sublist.mem hmem (hsub.map _))
          · rcases ihmem x hx with ⟨h1, h2⟩
            exact ⟨List.Sublist.mem h1 (hdel.map _), h2⟩
      | none =>
        rcases ih d hnd with ⟨ihnd, ihmem⟩
        exact ⟨ihnd, ihmem⟩
    · exact ih d hnd

theorem hintPass_cons_match {o : CaptureImage} {os : List CaptureImage}
    {d : List (String × CaptureImage)} {m : CaptureImage}
    (hhint : o.orientation_hint ≠ "")
    (hlk : dictLookup o.orientation_hint d = some m) :
    hintPass (o :: os) d =
      (⟨m.file_path, o.file_path, o.orientation_hint, m.id, o.id⟩ ::
        (hintPass os (dictDelete o.orientation_hint d)).1,
       (hintPass os (dictDelete o.orientation_hint d)).2) := by
  rw [hintPass, if_pos hhint, hlk]

theorem hintPass_cons_none {o : CaptureImage} {os : List CaptureImage}
    {d : List (String × CaptureImage)} (hhint : o.orientation_hint ≠ "")
    (hlk : dictLookup o.orientation_hint d = none) :
    hintPass (o :: os) d = hintPass os d := by
  rw [hintPass, if_pos hhint, hlk]

theorem hintPass_cons_skip {o : CaptureImage} {os : List CaptureImage}
    {d : List (String × CaptureImage)} (hhint : ¬ o.orientation_hint ≠ "") :
    hintPass (o :: os) d = hintPass os d := by
  rw [hintPass, if_neg hhint]

/-- With pairwise distinct dict keys, a dict entry whose image id never shows
up among the first-pass pairs survives the whole pass. -/
theorem hintPass_avail (mo : List CaptureImage) :
    ∀ d, (d.map (fun kv => kv.1)).Nodup →
      ∀ kv ∈ d, (∀ p ∈ (hintPass mo d).1, p.move_in_id ≠ kv.2.id) →
        kv ∈ (hintPass mo d).2 := by
  induction mo with
  | nil => intro d _ kv hkv _; exact hkv
  | cons o os ih =>
    intro d hnd kv hkv hnot
    by_cases hhint : o.orientation_hint ≠ ""
    · cases hlk : dictLookup o.orientation_hint d with
      | some m =>
        rw [hintPass_cons_match hhint hlk] at hnot ⊢
        have hne : kv.1 ≠ o.orientation_hint := by
          intro heq
          rcases dictLookup_some hlk with ⟨kv₀, hkv₀, hk1, hk2⟩
          have : kv = kv₀ :=
            List.inj_on_of_nodup_map hnd hkv hkv₀ (hk1 ▸ heq)
          subst this
          exact hnot _ (List.mem_cons_self _ _) (by rw [hk2])
        have hkv' : kv ∈ dictDelete o.orientation_hint d :=
          List.mem_filter.mpr ⟨hkv, by simpa using hne⟩
        have hnd' : ((dictDelete o.orientation_hint d).map
            (fun kv => kv.1)).Nodup := hnd.sublist ((List.filter_sublist d).map _)
        exact ih (dictDelete o.orientation_hint d) hnd' kv hkv'
          (fun p hp => hnot p (List.mem_cons_of_mem _ hp))
      | none =>
        rw [hintPass_cons_none hhint hlk] at hnot ⊢
        exact ih d hnd kv hkv hnot
    · rw [hintPass_cons_skip hhint] at hnot ⊢
      exact ih d hnd kv hkv hnot

theorem insertBySeq_perm (x : CaptureImage) :
    ∀ l, (insertBySeq x l).Perm (x :: l)
  | [] => List.Perm.refl _
  | y :: ys => by
    rw [insertBySeq]
    split_ifs with h
    · exact ((insertBySeq_perm x ys).cons y).trans (List.Perm.swap x y ys)
    · exact List.Perm.refl _

theorem sortBySeq_perm : ∀ l, (sortBySeq l).Perm l
  | [] => List.Perm.refl _
  | x :: xs =>
    (insertBySeq_perm x (sortBySeq xs)).trans ((sortBySeq_perm xs).cons x)

theorem insertBySeq_sorted (x : CaptureImage) :
    ∀ l, l.Pairwise (fun a b => a.seq ≤ b.seq) →
      (insertBySeq x l).Pairwise (fun a b => a.seq ≤ b.seq)
  | [], _ => by simp [insertBySeq]
  | y :: ys, h => by
    rw [insertBySeq]
    rcases List.pairwise_cons.mp h with ⟨hy, hys⟩
    split_ifs with hle
    · refine List.pairwise_cons.mpr ⟨?_, insertBySeq_sorted x ys hys⟩
      intro z hz
      rcases List.mem_cons.mp ((insertBySeq_perm x ys).mem_iff.mp hz) with rfl | hz
      · exact hle
      · exact hy z hz
    · refine List.pairwise_cons.mpr ⟨?_, h⟩
      intro z hz
      rcases List.mem_cons.mp hz with rfl | hz
      · omega
      · exact le_trans (by omega) (hy z hz)

theorem sortBySeq_sorted :
    ∀ l, (sortBySeq l).Pairwise (fun a b => a.seq ≤ b.seq)
  | [] => List.Pairwise.nil
  | x :: xs => insertBySeq_sorted x (sortBySeq xs) (sortBySeq_sorted xs)

/-- C6 (amended): assuming the move-in images have pairwise distinct
orientation hints and pairwise distinct ids (otherwise the dict comprehension
silently keeps only the last image per hint, so an earlier duplicate is
neither paired nor available as a leftover — see the counterexample), the
pairer is the claimed greedy two-pass matching: (i) every first-pass pair
joins a move-out image to a move-in image with the identical nonempty
orientation hint; (ii) each move-in image is consumed at most once; (iii)
every move-in image not consumed in the first pass is available as a leftover
for the second pass; (iv) both leftover lists are traversed in ascending
sequence-number order (each sorted list is a permutation of its leftovers);
and (v) the result is the first-pass pairs followed by the pairwise zip of the
two sorted leftover lists (so move-in images beyond the zip — those with no
corresponding move-out image — are dropped). -/
theorem pair_images_node_spec (mi mo : List CaptureImage)
    (hhint : (mi.map (fun m => m.orientation_hint)).Nodup)
    (hid : (mi.map (fun m => m.id)).Nodup) :
    (∀ p ∈ (hintPass mo (hintDict mi)).1,
      ∃ m ∈ mi, ∃ o ∈ mo, m.orientation_hint = o.orientation_hint ∧
        o.orientation_hint ≠ "" ∧
        p = ⟨m.file_path, o.file_path, o.orientation_hint, m.id, o.id⟩) ∧
    ((hintPass mo (hintDict mi)).1.map (fun p => p.move_in_id)).Nodup ∧
    (∀ m ∈ mi, (∀ p ∈ (hintPass mo (hintDict mi)).1, p.move_in_id ≠ m.id) →
      m ∈ ((hintPass mo (hintDict mi)).2).map (fun kv => kv.2)) ∧
    ((sortBySeq (((hintPass mo (hintDict mi)).2).map (fun kv => kv.2))).Pairwise
        (fun a b => a.seq ≤ b.seq) ∧
      (sortBySeq (((hintPass mo (hintDict mi)).2).map (fun kv => kv.2))).Perm
        (((hintPass mo (hintDict mi)).2).map (fun kv => kv.2)) ∧
      (sortBySeq (mo.filter (fun img => ¬ (hintPass mo (hintDict mi)).1.any
          (fun p => p.move_out_id = img.id)))).Pairwise
        (fun a b => a.seq ≤ b.seq) ∧
      (sortBySeq (mo.filter (fun img => ¬ (hintPass mo (hintDict mi)).1.any
          (fun p => p.move_out_id = img.id)))).Perm
        (mo.filter (fun img => ¬ (hintPass mo (hintDict mi)).1.any
          (fun p => p.move_out_id = img.id)))) ∧
    pair_images_node mi mo =
      (hintPass mo (hintDict mi)).1 ++
        ((sortBySeq (mo.filter (fun img => ¬ (hintPass mo (hintDict mi)).1.any
            (fun p => p.move_out_id = img.id)))).zip
          (sortBySeq (((hintPass mo (hintDict mi)).2).map (fun kv => kv.2)))).map
          (fun om => ⟨om.2.file_path, om.1.file_path, "seq_match",
            om.2.id, om.1.id⟩) := by
  have hdicteq := hintDict_eq_of_nodup mi hhint
  refine ⟨?_, ?_, ?_, ⟨sortBySeq_sorted _, sortBySeq_perm _,
    sortBySeq_sorted _, sortBySeq_perm _⟩, rfl⟩
  · intro p hp
    rcases hintPass_pairs_shape mo (hintDict mi) (hintDict_wellKeyed mi) p hp with
      ⟨kv, hkv, o, ho, h1, h2, h3⟩
    have hkv2 : kv.2 ∈ mi := by
      rw [hdicteq] at hkv
      rcases List.mem_map.mp hkv with ⟨m, hm, rfl⟩
      exact hm
    exact ⟨kv.2, hkv2, o, ho, h1, h2, h3⟩
  · have : ((hintDict mi).map (fun kv => kv.2.id)).Nodup := by
      rw [hdicteq, List.map_map]
      exact hid
    exact (hintPass_ids mo (hintDict mi) this).1
  · intro m hm hnot
    have hkeys : ((hintDict mi).map (fun kv => kv.1)).Nodup := by
      rw [hdicteq, List.map_map]
      exact hhint
    have hkv : (m.orientation_hint, m) ∈ hintDict mi := by
      rw [hdicteq]
      exact List.mem_map.mpr ⟨m, hm, rfl⟩
    have := hintPass_avail mo (hintDict mi) hkeys (m.orientation_hint, m) hkv
      (by simpa using hnot)
    exact List.mem_map.mpr ⟨(m.orientation_hint, m), this, rfl⟩

/-- Witness for `pair_images_node_spec`: one move-in and one hint-matching
move-out image; both hypotheses discharged by `decide`, the decomposition
clause extracted. -/
theorem pair_images_node_spec_witness :
    pair_images_node [⟨1, "a.jpg", "h", 0⟩] [⟨2, "b.jpg", "h", 0⟩] =
      (hintPass [⟨2, "b.jpg", "h", 0⟩] (hintDict [⟨1, "a.jpg", "h", 0⟩])).1 ++
        ((sortBySeq ([⟨2, "b.jpg", "h", 0⟩].filter (fun img =>
            ¬ (hintPass [⟨2, "b.jpg", "h", 0⟩]
                (hintDict [⟨1, "a.jpg", "h", 0⟩])).1.any
              (fun p => p.move_out_id = img.id)))).zip
          (sortBySeq (((hintPass [⟨2, "b.jpg", "h", 0⟩]
              (hintDict [⟨1, "a.jpg", "h", 0⟩])).2).map (fun kv => kv.2)))).map
          (fun om => ⟨om.2.file_path, om.1.file_path, "seq_match",
            om.2.id, om.1.id⟩) :=
  (pair_images_node_spec [⟨1, "a.jpg", "h", 0⟩] [⟨2, "b.jpg", "h", 0⟩]
    (by decide) (by decide)).2.2.2.2

/-! ## Region extraction
(src/app/agents/comparison/tools.py `extract_candidate_regions`)

The OpenCV primitives are modelled on the plane `ℤ × ℤ` following their
documented semantics: `cv2.threshold(..., THRESH_BINARY)` keeps pixels whose
value strictly exceeds the threshold `int(threshold * 255)`; the
`morphologyEx` close/open passes use dilation and erosion with the fixed 5×5
rectangular structuring element (the synthetic shapes of the claim lie in the
interior of the 200×200 canvas, where cv2's border handling is irrelevant,
and the canvas is zero outside the blocks); the external contours returned by
`cv2.findContours(..., RETR_EXTERNAL)` of a binary mask correspond one-to-one
to its 8-connected foreground components, and the pixel area of a filled
component is its cardinality. -/

/-- A dissimilarity map: an 8-bit value per pixel (zero off the canvas). -/
abbrev DiffMap := ℤ × ℤ → ℕ

/-- A binary mask. -/
abbrev BinImg := ℤ × ℤ → Bool

/-- The 5×5 rectangular structuring element's offset range. -/
def kernelOffsets : List ℤ := [-2, -1, 0, 1, 2]

/-- `cv2.threshold(diff_map, thresh_val, 255, cv2.THRESH_BINARY)`: a pixel is
set iff its value strictly exceeds the threshold. -/
def thresholdBinary (tval : ℤ) (img : DiffMap) : BinImg :=
  fun p => decide (tval < (img p : ℤ))

/-- Dilation with the 5×5 rectangular structuring element. -/
def dilate5 (b : BinImg) : BinImg :=
  fun p => kernelOffsets.any (fun dx => kernelOffsets.any (fun dy =>
    b (p.1 + dx, p.2 + dy)))

/-- Erosion with the 5×5 rectangular structuring element. -/
def erode5 (b : BinImg) : BinImg :=
  fun p => kernelOffsets.all (fun dx => kernelOffsets.all (fun dy =>
    b (p.1 + dx, p.2 + dy)))

/-- `cv2.MORPH_CLOSE`: dilate, then erode. -/
def morphClose (b : BinImg) : BinImg := erode5 (dilate5 b)

/-- `cv2.MORPH_OPEN`: erode, then dilate. -/
def morphOpen (b : BinImg) : BinImg := dilate5 (erode5 b)

/-- The cleaned binary mask of `extract_candidate_regions` for threshold θ
(θ ≥ 0, so Python's `int(θ*255)` is the floor): threshold, close, open. -/
def cleanedMask (θ : ℚ) (img : DiffMap) : BinImg :=
  morphOpen (morphClose (thresholdBinary ⌊θ * 255⌋ img))

/-- Pointwise union of binary masks. -/
def bor (b1 b2 : BinImg) : BinImg := fun p => b1 p || b2 p

/-- The filled axis-aligned block [x1,x2] × [y1,y2] as a mask. -/
def rectInd (x1 x2 y1 y2 : ℤ) : BinImg :=
  fun p => decide (x1 ≤ p.1 ∧ p.1 ≤ x2 ∧ y1 ≤ p.2 ∧ p.2 ≤ y2)

/-- The filled axis-aligned block [x1,x2] × [y1,y2] as a set of pixels. -/
def rectSet (x1 x2 y1 y2 : ℤ) : Set (ℤ × ℤ) :=
  {p | x1 ≤ p.1 ∧ p.1 ≤ x2 ∧ y1 ≤ p.2 ∧ p.2 ≤ y2}

/-- The all-zero 200×200 diff map. -/
def zeroMap : DiffMap := fun _ => 0

/-- A single block of value 255 on [x1,x2] × [y1,y2], zero elsewhere. -/
def blockMap (x1 x2 y1 y2 : ℤ) : DiffMap :=
  fun p => if x1 ≤ p.1 ∧ p.1 ≤ x2 ∧ y1 ≤ p.2 ∧ p.2 ≤ y2 then 255 else 0

/-- Two disjoint 30×30 blocks of value 255 on the 200×200 canvas. -/
def twoBlocksMap : DiffMap :=
  fun p => max (blockMap 20 49 20 49 p) (blockMap 120 149 120 149 p)

theorem bool_ext {a b : Bool} (h : a = true ↔ b = true) : a = b := by
  cases a <;> cases b <;> simp_all

theorem mem_kernelOffsets {d : ℤ} : d ∈ kernelOffsets ↔ -2 ≤ d ∧ d ≤ 2 := by
  unfold kernelOffsets
  simp only [List.mem_cons, List.mem_singleton, List.not_mem_nil, or_false]
  omega

theorem rectInd_true_iff {x1 x2 y1 y2 : ℤ} {p : ℤ × ℤ} :
    rectInd x1 x2 y1 y2 p = true ↔
      x1 ≤ p.1 ∧ p.1 ≤ x2 ∧ y1 ≤ p.2 ∧ p.2 ≤ y2 :=
  decide_eq_true_iff

theorem dilate5_true_iff {b : BinImg} {p : ℤ × ℤ} :
    dilate5 b p = true ↔
      ∃ dx dy, (-2 ≤ dx ∧ dx ≤ 2 ∧ -2 ≤ dy ∧ dy ≤ 2) ∧
        b (p.1 + dx, p.2 + dy) = true := by
  unfold dilate5
  simp only [List.any_eq_true]
  constructor
  · rintro ⟨dx, hdx, dy, hdy, hb⟩
    exact ⟨dx, dy, ⟨(mem_kernelOffsets.mp hdx).1, (mem_kernelOffsets.mp hdx).2,
      (mem_kernelOffsets.mp hdy).1, (mem_kernelOffsets.mp hdy).2⟩, hb⟩
  · rintro ⟨dx, dy, ⟨h1, h2, h3, h4⟩, hb⟩
    exact ⟨dx, mem_kernelOffsets.mpr ⟨h1, h2⟩, dy,
      mem_kernelOffsets.mpr ⟨h3, h4⟩, hb⟩

theorem erode5_true_iff {b : BinImg} {p : ℤ × ℤ} :
    erode5 b p = true ↔
      ∀ dx dy, (-2 ≤ dx ∧ dx ≤ 2 ∧ -2 ≤ dy ∧ dy ≤ 2) →
        b (p.1 + dx, p.2 + dy) = true := by
  unfold erode5
  simp only [List.all_eq_true]
  constructor
  · rintro h dx dy ⟨h1, h2, h3, h4⟩
    exact h dx (mem_kernelOffsets.mpr ⟨h1, h2⟩) dy (mem_kernelOffsets.mpr ⟨h3, h4⟩)
  · intro h dx hdx dy hdy
    exact h dx dy ⟨(mem_kernelOffsets.mp hdx).1, (mem_kernelOffsets.mp hdx).2,
      (mem_kernelOffsets.mp hdy).1, (mem_kernelOffsets.mp hdy).2⟩

theorem dilate5_rect {x1 x2 y1 y2 : ℤ} (hx : x1 ≤ x2) (hy : y1 ≤ y2) :
    dilate5 (rectInd x1 x2 y1 y2) = rectInd (x1 - 2) (x2 + 2) (y1 - 2) (y2 + 2) := by
  funext p
  apply bool_ext
  rw [dilate5_true_iff, rectInd_true_iff]
  constructor
  · rintro ⟨dx, dy, ⟨h1, h2, h3, h4⟩, hb⟩
    rw [rectInd_true_iff] at hb
    omega
  · intro h
    refine ⟨max (-2) (x1 - p.1), max (-2) (y1 - p.2), by omega, ?_⟩
    rw [rectInd_true_iff]
    omega

theorem erode5_rect (x1 x2 y1 y2 : ℤ) :
    erode5 (rectInd x1 x2 y1 y2) = rectInd (x1 + 2) (x2 - 2) (y1 + 2) (y2 - 2) := by
  funext p
  apply bool_ext
  rw [erode5_true_iff, rectInd_true_iff]
  constructor
  · intro h
    have h1 := h (-2) 0 (by omega)
    have h2 := h 2 0 (by omega)
    have h3 := h 0 (-2) (by omega)
    have h4 := h 0 2 (by omega)
    rw [rectInd_true_iff] at h1 h2 h3 h4
    omega
  · intro h dx dy hd
    rw [rectInd_true_iff]
    omega

theorem dilate5_bor (b1 b2 : BinImg) :
    dilate5 (bor b1 b2) = bor (dilate5 b1) (dilate5 b2) := by
  funext p
  apply bool_ext
  simp only [bor, Bool.or_eq_true]
  rw [dilate5_true_iff]
  constructor
  · rintro ⟨dx, dy, hd, hb⟩
    simp only [bor, Bool.or_eq_true] at hb
    rcases hb with hb | hb
    · exact Or.inl (dilate5_true_iff.mpr ⟨dx, dy, hd, hb⟩)
    · exact Or.inr (dilate5_true_iff.mpr ⟨dx, dy, hd, hb⟩)
  · rintro (hb | hb) <;> rcases dilate5_true_iff.mp hb with ⟨dx, dy, hd, hb'⟩
    · exact ⟨dx, dy, hd, by simp [bor, hb']⟩
    · exact ⟨dx, dy, hd, by simp [bor, hb']⟩

/-- Erosion distributes over the union of two x-separated blocks: a 5×5
window cannot touch both. -/
theorem erode5_bor_sep {a1 a2 c1 c2 b1 b2 d1 d2 : ℤ} (hsep : a2 + 4 < b1) :
    erode5 (bor (rectInd a1 a2 c1 c2) (rectInd b1 b2 d1 d2)) =
      bor (erode5 (rectInd a1 a2 c1 c2)) (erode5 (rectInd b1 b2 d1 d2)) := by
  funext p
  apply bool_ext
  simp only [bor, Bool.or_eq_true]
  constructor
  · intro h
    have hall := erode5_true_iff.mp h
    have hc := hall 0 0 (by omega)
    simp only [bor, Bool.or_eq_true, rectInd_true_iff] at hc
    rcases hc with hc | hc
    · left
      rw [erode5_true_iff]
      intro dx dy hd
      have := hall dx dy hd
      simp only [bor, Bool.or_eq_true, rectInd_true_iff] at this
      rw [rectInd_true_iff]
      rcases this with h' | h'
      · exact h'
      · omega
    · right
      rw [erode5_true_iff]
      intro dx dy hd
      have := hall dx dy hd
      simp only [bor, Bool.or_eq_true, rectInd_true_iff] at this
      rw [rectInd_true_iff]
      rcases this with h' | h'
      · omega
      · exact h'
  · intro h
    rw [erode5_true_iff]
    intro dx dy hd
    simp only [bor, Bool.or_eq_true]
    rcases h with h | h
    · exact Or.inl (erode5_true_iff.mp h dx dy hd)
    · exact Or.inr (erode5_true_iff.mp h dx dy hd)

/-- 8-neighbourhood adjacency of distinct pixels. -/
def Adj8 (p q : ℤ × ℤ) : Prop :=
  p ≠ q ∧ (p.1 - q.1).natAbs ≤ 1 ∧ (p.2 - q.2).natAbs ≤ 1

/-- One step between set pixels of a mask. -/
def FgStep (b : BinImg) (p q : ℤ × ℤ) : Prop :=
  b p = true ∧ b q = true ∧ Adj8 p q

/-- Connectivity inside the foreground of a mask. -/
def FgConn (b : BinImg) (p q : ℤ × ℤ) : Prop :=
  Relation.ReflTransGen (FgStep b) p q

/-- S is an 8-connected component of the mask: the connectivity class of one
of its set pixels.  The external contours found by
`cv2.findContours(..., RETR_EXTERNAL)` correspond one-to-one to these
components. -/
def IsComponent (b : BinImg) (S : Set (ℤ × ℤ)) : Prop :=
  ∃ p, b p = true ∧ S = {q | b q = true ∧ FgConn b p q}

/-- A region emitted by `extract_candidate_regions` at threshold θ: a
component of the cleaned mask whose pixel area reaches `min_area`. -/
def IsRegion (θ : ℚ) (img : DiffMap) (min_area : ℕ) (S : Set (ℤ × ℤ)) : Prop :=
  IsComponent (cleanedMask θ img) S ∧ min_area ≤ S.ncard

/-- cv2.boundingRect of a pixel set: x, y, w, h with the set inside
[x, x+w) × [y, y+h) and all four extremes attained. -/
def BBoxOf (S : Set (ℤ × ℤ)) (x y w h : ℤ) : Prop :=
  (∀ p ∈ S, x ≤ p.1 ∧ p.1 < x + w ∧ y ≤ p.2 ∧ p.2 < y + h) ∧
  (∃ p ∈ S, p.1 = x) ∧ (∃ p ∈ S, p.1 = x + w - 1) ∧
  (∃ p ∈ S, p.2 = y) ∧ (∃ p ∈ S, p.2 = y + h - 1)

theorem fgStep_symm (b : BinImg) : Symmetric (FgStep b) := by
  rintro p q ⟨hp, hq, hne, hx, hy⟩
  exact ⟨hq, hp, Ne.symm hne, by omega, by omega⟩

theorem fgConn_symm (b : BinImg) : Symmetric (FgConn b) :=
  Relation.ReflTransGen.symmetric (fgStep_symm b)

theorem fgConn_mono {b1 b2 : BinImg} (h : ∀ x, b1 x = true → b2 x = true)
    {p q : ℤ × ℤ} (hc : FgConn b1 p q) : FgConn b2 p q := by
  induction hc with
  | refl => exact Relation.ReflTransGen.refl
  | tail _ hstep ih =>
    exact ih.tail ⟨h _ hstep.1, h _ hstep.2.1, hstep.2.2⟩

/-- Horizontal connectivity inside a block. -/
theorem rect_conn_horiz {x1 x2 y1 y2 : ℤ} {a y : ℤ}
    (ha1 : x1 ≤ a) (hy1 : y1 ≤ y) (hy2 : y ≤ y2) :
    ∀ c, a ≤ c → c ≤ x2 →
      FgConn (rectInd x1 x2 y1 y2) (a, y) (c, y) := by
  intro c
  have h1 : ∀ n, a ≤ n →
      (n ≤ x2 → FgConn (rectInd x1 x2 y1 y2) (a, y) (n, y)) →
      (n + 1 ≤ x2 → FgConn (rectInd x1 x2 y1 y2) (a, y) (n + 1, y)) := by
    intro n hn ih hn2
    refine Relation.ReflTransGen.tail (ih (by omega)) ?_
    refine ⟨rectInd_true_iff.mpr ⟨by omega, by omega, hy1, hy2⟩,
      rectInd_true_iff.mpr ⟨by omega, by omega, hy1, hy2⟩, ?_, ?_, ?_⟩
    · intro hcontra
      have : n = n + 1 := congrArg Prod.fst hcontra
      omega
    · simp only []
      omega
    · simp only []
      omega
  exact @Int.le_induction
    (fun c => c ≤ x2 → FgConn (rectInd x1 x2 y1 y2) (a, y) (c, y)) a
    (fun _ => Relation.ReflTransGen.refl) h1 c

/-- Vertical connectivity inside a block. -/
theorem rect_conn_vert {x1 x2 y1 y2 : ℤ} {x a : ℤ}
    (hx1 : x1 ≤ x) (hx2 : x ≤ x2) (ha1 : y1 ≤ a) :
    ∀ c, a ≤ c → c ≤ y2 →
      FgConn (rectInd x1 x2 y1 y2) (x, a) (x, c) := by
  intro c
  have h1 : ∀ n, a ≤ n →
      (n ≤ y2 → FgConn (rectInd x1 x2 y1 y2) (x, a) (x, n)) →
      (n + 1 ≤ y2 → FgConn (rectInd x1 x2 y1 y2) (x, a) (x, n + 1)) := by
    intro n hn ih hn2
    refine Relation.ReflTransGen.tail (ih (by omega)) ?_
    refine ⟨rectInd_true_iff.mpr ⟨hx1, hx2, by omega, by omega⟩,
      rectInd_true_iff.mpr ⟨hx1, hx2, by omega, by omega⟩, ?_, ?_, ?_⟩
    · intro hcontra
      have : n = n + 1 := congrArg Prod.snd hcontra
      omega
    · simp only []
      omega
    · simp only []
      omega
  exact @Int.le_induction
    (fun c => c ≤ y2 → FgConn (rectInd x1 x2 y1 y2) (x, a) (x, c)) a
    (fun _ => Relation.ReflTransGen.refl) h1 c

/-- Any two pixels of a block are connected inside it. -/
theorem rect_conn {x1 x2 y1 y2 : ℤ} {p q : ℤ × ℤ}
    (hp : p ∈ rectSet x1 x2 y1 y2) (hq : q ∈ rectSet x1 x2 y1 y2) :
    FgConn (rectInd x1 x2 y1 y2) p q := by
  obtain ⟨hp1, hp2, hp3, hp4⟩ := hp
  obtain ⟨hq1, hq2, hq3, hq4⟩ := hq
  have hhor : FgConn (rectInd x1 x2 y1 y2) (p.1, p.2) (q.1, p.2) := by
    rcases le_total p.1 q.1 with h | h
    · exact rect_conn_horiz hp1 hp3 hp4 q.1 h hq2
    · exact fgConn_symm _ (rect_conn_horiz hq1 hp3 hp4 p.1 h hp2)
  have hver : FgConn (rectInd x1 x2 y1 y2) (q.1, p.2) (q.1, q.2) := by
    rcases le_total p.2 q.2 with h | h
    · exact rect_conn_vert hq1 hq2 hp3 q.2 h hq4
    · exact fgConn_symm _ (rect_conn_vert hq1 hq2 hq3 p.2 h hp4)
  exact hhor.trans hver

/-- The components of a nonempty block mask: exactly the block itself. -/
theorem isComponent_rect_iff {x1 x2 y1 y2 : ℤ} (hx : x1 ≤ x2) (hy : y1 ≤ y2)
    (S : Set (ℤ × ℤ)) :
    IsComponent (rectInd x1 x2 y1 y2) S ↔ S = rectSet x1 x2 y1 y2 := by
  constructor
  · rintro ⟨p, hp, rfl⟩
    have hpmem : p ∈ rectSet x1 x2 y1 y2 := rectInd_true_iff.mp hp
    ext q
    constructor
    · rintro ⟨hq, -⟩
      exact rectInd_true_iff.mp hq
    · intro hq
      exact ⟨rectInd_true_iff.mpr hq, rect_conn hpmem hq⟩
  · rintro rfl
    refine ⟨(x1, y1), rectInd_true_iff.mpr ⟨le_refl _, hx, le_refl _, hy⟩, ?_⟩
    ext q
    constructor
    · intro hq
      exact ⟨rectInd_true_iff.mpr hq, rect_conn ⟨le_refl _, hx, le_refl _, hy⟩ hq⟩
    · rintro ⟨hq, -⟩
      exact rectInd_true_iff.mp hq

/-- No component exists in an all-false mask. -/
theorem no_component_false (b : BinImg) (hb : ∀ p, b p = false)
    (S : Set (ℤ × ℤ)) : ¬ IsComponent b S := by
  rintro ⟨p, hp, -⟩
  rw [hb p] at hp
  cases hp

/-- Foreground connectivity cannot jump an x-gap wider than one pixel:
starting in the left block it stays there. -/
theorem fgConn_stay_left {a1 a2 c1 c2 b1 b2 d1 d2 : ℤ} (hsep : a2 + 1 < b1)
    {p q : ℤ × ℤ}
    (hc : FgConn (bor (rectInd a1 a2 c1 c2) (rectInd b1 b2 d1 d2)) p q)
    (hp : p ∈ rectSet a1 a2 c1 c2) : q ∈ rectSet a1 a2 c1 c2 := by
  induction hc with
  | refl => exact hp
  | tail _ step ih =>
    obtain ⟨_, hy, _, hdx, hdy⟩ := step
    simp only [bor, Bool.or_eq_true, rectInd_true_iff] at hy
    obtain ⟨m1, m2, m3, m4⟩ := ih
    rcases hy with h | h
    · exact h
    · exfalso
      omega

/-- The mirror image: starting in the right block it stays there. -/
theorem fgConn_stay_right {a1 a2 c1 c2 b1 b2 d1 d2 : ℤ} (hsep : a2 + 1 < b1)
    {p q : ℤ × ℤ}
    (hc : FgConn (bor (rectInd a1 a2 c1 c2) (rectInd b1 b2 d1 d2)) p q)
    (hp : p ∈ rectSet b1 b2 d1 d2) : q ∈ rectSet b1 b2 d1 d2 := by
  induction hc with
  | refl => exact hp
  | tail _ step ih =>
    obtain ⟨_, hy, _, hdx, hdy⟩ := step
    simp only [bor, Bool.or_eq_true, rectInd_true_iff] at hy
    obtain ⟨m1, m2, m3, m4⟩ := ih
    rcases hy with h | h
    · exfalso
      omega
    · exact h

/-- The components of the union of two x-separated nonempty blocks: exactly
the two blocks. -/
theorem isComponent_two_rects_iff {a1 a2 c1 c2 b1 b2 d1 d2 : ℤ}
    (hxa : a1 ≤ a2) (hya : c1 ≤ c2) (hxb : b1 ≤ b2) (hyb : d1 ≤ d2)
    (hsep : a2 + 1 < b1) (S : Set (ℤ × ℤ)) :
    IsComponent (bor (rectInd a1 a2 c1 c2) (rectInd b1 b2 d1 d2)) S ↔
      S = rectSet a1 a2 c1 c2 ∨ S = rectSet b1 b2 d1 d2 := by
  have hmono1 : ∀ x, rectInd a1 a2 c1 c2 x = true →
      bor (rectInd a1 a2 c1 c2) (rectInd b1 b2 d1 d2) x = true := by
    intro x hx
    simp [bor, hx]
  have hmono2 : ∀ x, rectInd b1 b2 d1 d2 x = true →
      bor (rectInd a1 a2 c1 c2) (rectInd b1 b2 d1 d2) x = true := by
    intro x hx
    simp [bor, hx]
  have hclass1 : ∀ p ∈ rectSet a1 a2 c1 c2,
      {q | bor (rectInd a1 a2 c1 c2) (rectInd b1 b2 d1 d2) q = true ∧
        FgConn (bor (rectInd a1 a2 c1 c2) (rectInd b1 b2 d1 d2)) p q} =
      rectSet a1 a2 c1 c2 := by
    intro p hp
    ext q
    constructor
    · rintro ⟨-, hconn⟩
      exact fgConn_stay_left hsep hconn hp
    · intro hq
      exact ⟨hmono1 q (rectInd_true_iff.mpr hq),
        fgConn_mono hmono1 (rect_conn hp hq)⟩
  have hclass2 : ∀ p ∈ rectSet b1 b2 d1 d2,
      {q | bor (rectInd a1 a2 c1 c2) (rectInd b1 b2 d1 d2) q = true ∧
        FgConn (bor (rectInd a1 a2 c1 c2) (rectInd b1 b2 d1 d2)) p q} =
      rectSet b1 b2 d1 d2 := by
    intro p hp
    ext q
    constructor
    · rintro ⟨-, hconn⟩
      exact fgConn_stay_right hsep hconn hp
    · intro hq
      exact ⟨hmono2 q (rectInd_true_iff.mpr hq),
        fgConn_mono hmono2 (rect_conn hp hq)⟩
  constructor
  · rintro ⟨p, hp, rfl⟩
    simp only [bor, Bool.or_eq_true, rectInd_true_iff] at hp
    rcases hp with hp | hp
    · exact Or.inl (hclass1 p hp)
    · exact Or.inr (hclass2 p hp)
  · rintro (rfl | rfl)
    · exact ⟨(a1, c1), hmono1 _ (rectInd_true_iff.mpr
        ⟨le_refl _, hxa, le_refl _, hya⟩),
        (hclass1 (a1, c1) ⟨le_refl _, hxa, le_refl _, hya⟩).symm⟩
    · exact ⟨(b1, d1), hmono2 _ (rectInd_true_iff.mpr
        ⟨le_refl _, hxb, le_refl _, hyb⟩),
        (hclass2 (b1, d1) ⟨le_refl _, hxb, le_refl _, hyb⟩).symm⟩

/-- Pixel area of a filled block. -/
theorem rectSet_ncard (x1 x2 y1 y2 : ℤ) :
    (rectSet x1 x2 y1 y2).ncard =
      (x2 + 1 - x1).toNat * (y2 + 1 - y1).toNat := by
  have heq : rectSet x1 x2 y1 y2 =
      ↑(Finset.Icc x1 x2 ×ˢ Finset.Icc y1 y2) := by
    ext p
    simp only [rectSet, Set.mem_setOf_eq, Finset.coe_product, Set.mem_prod,
      Finset.coe_Icc, Set.mem_Icc]
    tauto
  rw [heq, Set.ncard_coe_Finset, Finset.card_product, Int.card_Icc, Int.card_Icc]

theorem dilate5_const_false : dilate5 (fun _ => false) = fun _ => false := by
  funext p
  apply bool_ext
  rw [dilate5_true_iff]
  simp

theorem erode5_const_false : erode5 (fun _ => false) = fun _ => false := by
  funext p
  apply bool_ext
  rw [erode5_true_iff]
  constructor
  · intro h
    exact absurd (h 0 0 (by omega)) (by simp)
  · intro h
    cases h

theorem rectInd_empty {x1 x2 y1 y2 : ℤ} (h : x2 < x1) :
    rectInd x1 x2 y1 y2 = fun _ => false := by
  funext p
  apply bool_ext
  rw [rectInd_true_iff]
  constructor
  · intro hc
    omega
  · intro hc
    cases hc

/-- Python `int(0.15 * 255)` for the default structural-diff threshold. -/
theorem floor_default_threshold : (⌊(3/20 : ℚ) * 255⌋ : ℤ) = 38 := by
  rw [Int.floor_eq_iff]
  constructor <;> norm_num

theorem cleanedMask_zero {θ : ℚ} (hθ : 0 ≤ θ) :
    cleanedMask θ zeroMap = fun _ => false := by
  have ht : (0 : ℤ) ≤ ⌊θ * 255⌋ := Int.floor_nonneg.mpr (by positivity)
  have h0 : thresholdBinary ⌊θ * 255⌋ zeroMap = fun _ => false := by
    funext p
    simp only [thresholdBinary, zeroMap, Nat.cast_zero]
    simpa using by omega
  rw [cleanedMask, h0, morphClose, morphOpen, dilate5_const_false,
    erode5_const_false, erode5_const_false, dilate5_const_false]

theorem thresholdBinary_block {x1 x2 y1 y2 : ℤ} :
    thresholdBinary 38 (blockMap x1 x2 y1 y2) = rectInd x1 x2 y1 y2 := by
  funext p
  apply bool_ext
  rw [rectInd_true_iff]
  simp only [thresholdBinary, blockMap, decide_eq_true_iff]
  by_cases h : x1 ≤ p.1 ∧ p.1 ≤ x2 ∧ y1 ≤ p.2 ∧ p.2 ≤ y2
  · rw [if_pos h]
    exact iff_of_true (by norm_num) h
  · rw [if_neg h]
    exact iff_of_false (by norm_num) h

theorem thresholdBinary_max (t : ℤ) (f g : DiffMap) :
    thresholdBinary t (fun p => max (f p) (g p)) =
      bor (thresholdBinary t f) (thresholdBinary t g) := by
  funext p
  apply bool_ext
  simp only [thresholdBinary, bor, Bool.or_eq_true, decide_eq_true_iff]
  rw [Nat.cast_max]
  exact lt_max_iff

theorem cleanedMask_block :
    cleanedMask (3/20) (blockMap 50 99 50 99) = rectInd 50 99 50 99 := by
  rw [cleanedMask, floor_default_threshold, thresholdBinary_block, morphClose,
    dilate5_rect (by norm_num) (by norm_num), erode5_rect, morphOpen]
  norm_num
  rw [erode5_rect, dilate5_rect (by norm_num) (by norm_num)]
  norm_num

theorem cleanedMask_threeByThree :
    cleanedMask (3/20) (blockMap 100 102 100 102) = fun _ => false := by
  rw [cleanedMask, floor_default_threshold, thresholdBinary_block, morphClose,
    dilate5_rect (by norm_num) (by norm_num), erode5_rect, morphOpen]
  norm_num
  rw [erode5_rect]
  norm_num
  rw [rectInd_empty (by norm_num), dilate5_const_false]

theorem cleanedMask_twoBlocks :
    cleanedMask (3/20) twoBlocksMap =
      bor (rectInd 20 49 20 49) (rectInd 120 149 120 149) := by
  have hthr : thresholdBinary 38 twoBlocksMap =
      bor (rectInd 20 49 20 49) (rectInd 120 149 120 149) := by
    rw [show twoBlocksMap =
        (fun p => max (blockMap 20 49 20 49 p) (blockMap 120 149 120 149 p))
      from rfl, thresholdBinary_max, thresholdBinary_block, thresholdBinary_block]
  rw [cleanedMask, floor_default_threshold, hthr, morphClose, dilate5_bor,
    dilate5_rect (by norm_num) (by norm_num),
    dilate5_rect (by norm_num) (by norm_num)]
  norm_num
  rw [erode5_bor_sep (by norm_num), erode5_rect, erode5_rect]
  norm_num
  rw [morphOpen, erode5_bor_sep (by norm_num), erode5_rect, erode5_rect]
  norm_num
  rw [dilate5_bor, dilate5_rect (by norm_num) (by norm_num),
    dilate5_rect (by norm_num) (by norm_num)]
  norm_num

/-- C8: region extraction (threshold at θ·255, 5×5 closing-then-opening,
external contours, pixel area ≥ min_area = 500) on the synthetic scenarios:
(i) the all-zero 200×200 diff map yields zero regions at any (nonnegative)
threshold; (ii) at the default threshold 0.15, a single 50×50 high-value block
yields exactly one region — the block itself — whose bounding box has positive
width and height; (iii) two disjoint, well-separated 30×30 blocks yield
exactly two regions; (iv) a single 3×3 block yields zero regions (the opening
erases it, and its area 9 is below 500 anyway). -/
theorem extract_regions_scenarios :
    (∀ θ : ℚ, 0 ≤ θ → ∀ S, ¬ IsRegion θ zeroMap 500 S) ∧
    ((∀ S, IsRegion (3/20) (blockMap 50 99 50 99) 500 S ↔
        S = rectSet 50 99 50 99) ∧
      ∃ x y w h, BBoxOf (rectSet 50 99 50 99) x y w h ∧ 0 < w ∧ 0 < h) ∧
    ((∀ S, IsRegion (3/20) twoBlocksMap 500 S ↔
        (S = rectSet 20 49 20 49 ∨ S = rectSet 120 149 120 149)) ∧
      rectSet 20 49 20 49 ≠ rectSet 120 149 120 149) ∧
    (∀ S, ¬ IsRegion (3/20) (blockMap 100 102 100 102) 500 S) := by
  refine ⟨?_, ⟨?_, ?_⟩, ⟨?_, ?_⟩, ?_⟩
  · rintro θ hθ S ⟨hcomp, -⟩
    rw [cleanedMask_zero hθ] at hcomp
    exact no_component_false _ (fun _ => rfl) S hcomp
  · intro S
    constructor
    · rintro ⟨hcomp, -⟩
      rw [cleanedMask_block] at hcomp
      exact (isComponent_rect_iff (by norm_num) (by norm_num) S).mp hcomp
    · rintro rfl
      refine ⟨?_, ?_⟩
      · rw [cleanedMask_block]
        exact (isComponent_rect_iff (by norm_num) (by norm_num) _).mpr rfl
      · rw [rectSet_ncard]
        decide
  · refine ⟨50, 50, 50, 50, ⟨?_, ?_, ?_, ?_, ?_⟩, by norm_num, by norm_num⟩
    · rintro p ⟨h1, h2, h3, h4⟩
      refine ⟨h1, by omega, h3, by omega⟩
    · exact ⟨(50, 50), ⟨le_refl _, by norm_num, le_refl _, by norm_num⟩, rfl⟩
    · exact ⟨(99, 50), ⟨by norm_num, le_refl _, le_refl _, by norm_num⟩, by norm_num⟩
    · exact ⟨(50, 50), ⟨le_refl _, by norm_num, le_refl _, by norm_num⟩, rfl⟩
    · exact ⟨(50, 99), ⟨le_refl _, by norm_num, by norm_num, le_refl _⟩, by norm_num⟩
  · intro S
    constructor
    · rintro ⟨hcomp, -⟩
      rw [cleanedMask_twoBlocks] at hcomp
      exact (isComponent_two_rects_iff (by norm_num) (by norm_num) (by norm_num)
        (by norm_num) (by norm_num) S).mp hcomp
    · rintro (rfl | rfl)
      · refine ⟨?_, ?_⟩
        · rw [cleanedMask_twoBlocks]
          exact (isComponent_two_rects_iff (by norm_num) (by norm_num)
            (by norm_num) (by norm_num) (by norm_num) _).mpr (Or.inl rfl)
        · rw [rectSet_ncard]
          decide
      · refine ⟨?_, ?_⟩
        · rw [cleanedMask_twoBlocks]
          exact (isComponent_two_rects_iff (by norm_num) (by norm_num)
            (by norm_num) (by norm_num) (by norm_num) _).mpr (Or.inr rfl)
        · rw [rectSet_ncard]
          decide
  · intro hcontra
    have h1 : ((20 : ℤ), (20 : ℤ)) ∈ rectSet 20 49 20 49 :=
      ⟨le_refl _, by norm_num, le_refl _, by norm_num⟩
    rw [hcontra] at h1
    obtain ⟨h, -⟩ := h1
    norm_num at h
  · rintro S ⟨hcomp, -⟩
    rw [cleanedMask_threeByThree] at hcomp
    exact no_component_false _ (fun _ => rfl) S hcomp

/-- Witness for `extract_regions_scenarios`: the single 50×50 block is itself
a region at the default threshold 0.15. -/
theorem extract_regions_scenarios_witness :
    IsRegion (3/20) (blockMap 50 99 50 99) 500 (rectSet 50 99 50 99) :=
  (extract_regions_scenarios.2.1.1 (rectSet 50 99 50 99)).mpr rfl

end Walkthrough
